import Mathlib

/-!
# blob-local: a local emulation of an object store

A shallow embedding of `services/blob-local` (packages `server`, `provider` and the parts of
`operation` that call them) together with the properties of it that are established here.

Conventions of the embedding.

* A Go `string` is a `Str`, the list of its bytes.  The program inspects the bytes `/`,
  `.`, `-`, `+`, `_` and the decimal digits; a string need not be valid UTF-8 (a pathname
  comes from the request path, a content type from a header).
* A record is stored in the index as JSON text.  `json.Marshal` writes every byte of a
  string that is not part of a valid UTF-8 sequence as U+FFFD, so the record read back holds
  its strings coerced to valid UTF-8 (`toValidUTF8`), while the key of the record is the
  string as it was.
* The index engine and the disk do not fail on their own: a write to the index succeeds, and
  a file operation fails only for the reasons its model names.
* A byte payload is a `Bytes`, a list of octets.
* The clock (`time.Now`) and the random source (`rand.New`) are explicit arguments.
* The file system and the key-value index are explicit state, threaded through every
  operation; an operation that can fail returns a `Res`.
* The Go standard library functions the program calls (`path.Clean`, `path.Join`, `path.Ext`,
  `path.Base`, `strings.Replace`, `strconv.Atoi`, the `%d` verb of `fmt.Sprintf`) are
  modelled after their documented behaviour.
-/

/-- The Go string written with the same literal, byte by byte, for a literal made of ASCII
characters and of `\x` escapes. -/
def String.toStr (s : String) : List Nat := s.toList.map Char.toNat

namespace BlobLocal

/-- A Go string: the list of its bytes, a byte being a number below 256.  In the
definitions below 47 is the slash, 46 the dot, 45 the minus sign, 43 the plus sign, 95 the
underscore and 48 to 57 are the digits. -/
abbrev Str := List Nat

/-- A byte payload. -/
abbrev Bytes := List UInt8

/-! ## Standard library: package `path` -/

/-- The slash-separated elements of a path; a path without a slash is its own single element. -/
def splitSlash : Str → List Str
  | [] => [[]]
  | c :: cs =>
    if c = 47 then [] :: splitSlash cs
    else
      match splitSlash cs with
      | [] => [[c]]
      | s :: ss => (c :: s) :: ss

/-- The elements joined again, with one slash between two neighbours. -/
def joinSlash : List Str → Str
  | [] => []
  | [s] => s
  | s :: t :: ss => s ++ 47 :: joinSlash (t :: ss)

/-- The text `..`. -/
def dotdot : Str := [46, 46]

/-- One element of `path.Clean`, applied to the elements kept so far (`out`, last element
first).  An empty element and `.` are dropped.  `..` removes the element before it; when there
is none to remove (nothing kept, or only leading `..`), it is dropped in a rooted path and kept
in a relative one.  Any other element is kept. -/
def cleanStep (rooted : Bool) (out : List Str) (seg : Str) : List Str :=
  if seg = [] then out
  else if seg = [46] then out
  else if seg = dotdot then
    match out with
    | [] => if rooted then [] else [dotdot]
    | top :: below => if top = dotdot then (if rooted then out else dotdot :: out) else below
  else seg :: out

/-- The elements `path.Clean` keeps, last element first. -/
def cleanSegs (rooted : Bool) (segs : List Str) : List Str :=
  segs.foldl (cleanStep rooted) []

/-- Whether a path is rooted (`path[0] == 47`). -/
def isRooted : Str → Bool
  | c :: _ => c = 47
  | [] => false

/-- Go `path.Clean`: the shortest path equivalent to the given one by purely lexical
processing.  The empty result of a relative path is `.`; a rooted path keeps its leading
slash. -/
def Clean (p : Str) : Str :=
  let kept := (cleanSegs (isRooted p) (splitSlash p)).reverse
  if isRooted p then 47 :: joinSlash kept
  else if kept = [] then [46] else joinSlash kept

/-- Go `path.Join`: leading empty elements are ignored, the rest is joined with slashes and
cleaned; when every element is empty the result is the empty string. -/
def Join (elem : List Str) : Str :=
  match elem.dropWhile (fun e => e = []) with
  | [] => []
  | e :: es => Clean (joinSlash (e :: es))

/-- The backward scan of `path.Ext` over the reversed path: it stops at a slash with no
extension, and at the first dot with the suffix read so far. -/
def extScan : Str → Str → Str
  | [], _ => []
  | c :: cs, acc =>
    if c = 47 then []
    else if c = 46 then 46 :: acc
    else extScan cs (c :: acc)

/-- Go `path.Ext`: the suffix beginning at the final dot in the final slash-separated element
of the path; empty if there is no dot. -/
def Ext (p : Str) : Str := extScan p.reverse []

/-- The text after the last slash of a path (all of it when there is no slash). -/
def lastElem : Str → Str
  | [] => []
  | c :: cs => if cs.contains 47 then lastElem cs else if c = 47 then cs else c :: cs

/-- Go `path.Base`: the last element of the path, trailing slashes removed first; `.` for
the empty path and `/` for a path of slashes only. -/
def Base (p : Str) : Str :=
  if p = [] then [46]
  else
    let q := (p.reverse.dropWhile (fun c => c = 47)).reverse
    let r := lastElem q
    if r = [] then [47] else r

/-- Go `path.Dir`: everything up to the final slash, cleaned. -/
def Dir (p : Str) : Str :=
  Clean ((p.reverse.dropWhile (fun c => c ≠ 47)).reverse)

/-! ## Standard library: package `unicode/utf8` -/

/-- Whether a byte lies between two bounds. -/
def inRange (lo hi b : Nat) : Bool := decide (lo ≤ b) && decide (b ≤ hi)

/-- The width of the UTF-8 sequence a string begins with, as `utf8.DecodeRuneInString`
finds it: 1 for an ASCII byte, 2 to 4 for a lead byte `C2`..`F4` followed by the
continuation bytes its accept range asks for.  `none` when the string does not begin with a
valid sequence; the decoder then returns `RuneError` with width 1. -/
def runeLen : Str → Option Nat
  | [] => none
  | b0 :: rest =>
    if b0 < 128 then some 1
    else if inRange 194 223 b0 then
      match rest with
      | b1 :: _ => if inRange 128 191 b1 then some 2 else none
      | _ => none
    else if inRange 224 239 b0 then
      match rest with
      | b1 :: b2 :: _ =>
        if inRange (if b0 = 224 then 160 else 128) (if b0 = 237 then 159 else 191) b1
            && inRange 128 191 b2 then some 3
        else none
      | _ => none
    else if inRange 240 244 b0 then
      match rest with
      | b1 :: b2 :: b3 :: _ =>
        if inRange (if b0 = 240 then 144 else 128) (if b0 = 244 then 143 else 191) b1
            && inRange 128 191 b2 && inRange 128 191 b3 then some 4
        else none
      | _ => none
    else none

/-- The UTF-8 encoding of U+FFFD, the replacement character. -/
def replacementChar : Str := [239, 191, 189]

/-- The scan that replaces every byte which is not part of a valid UTF-8 sequence by
U+FFFD; `skip` bytes of the sequence just recognised are still to be copied. -/
def coerceScan : Nat → Str → Str
  | _, [] => []
  | skip + 1, b :: bs => b :: coerceScan skip bs
  | 0, b :: bs =>
    match runeLen (b :: bs) with
    | some n => b :: coerceScan (n - 1) bs
    | none => replacementChar ++ coerceScan 0 bs

/-- A string as it comes back from its JSON encoding: `json.Marshal` writes a string
"coerced to valid UTF-8, replacing invalid bytes with the Unicode replacement rune", and
`json.Unmarshal` reads that text back unchanged. -/
def toValidUTF8 (s : Str) : Str := coerceScan 0 s

/-- The scan of `utf8.ValidString`; `skip` bytes of the sequence just recognised are still
to be passed over. -/
def validScan : Nat → Str → Bool
  | _, [] => true
  | skip + 1, _ :: bs => validScan skip bs
  | 0, b :: bs =>
    match runeLen (b :: bs) with
    | some n => validScan (n - 1) bs
    | none => false

/-- Go `utf8.ValidString`: whether a string is made of valid UTF-8 sequences only. -/
def utf8Valid (s : Str) : Bool := validScan 0 s

/-- The scan of `strings.ReplaceAll` for an empty `old`: `new` is put after every UTF-8
sequence, a byte that begins no valid sequence counting as one; `skip` bytes of the
sequence just recognised are still to be copied. -/
def insertAfterRunes (new : Str) : Nat → Str → Str
  | _, [] => []
  | skip + 2, b :: bs => b :: insertAfterRunes new (skip + 1) bs
  | 1, b :: bs => b :: new ++ insertAfterRunes new 0 bs
  | 0, b :: bs =>
    match runeLen (b :: bs) with
    | some (n + 2) => b :: insertAfterRunes new (n + 1) bs
    | _ => b :: new ++ insertAfterRunes new 0 bs

/-! ## Standard library: packages `strings`, `strconv`, `fmt` -/

/-- Go `strings.Index`: the position of the first occurrence of `old` in `s`. -/
def Index : Str → Str → Option Nat
  | [], old => if old = [] then some 0 else none
  | c :: cs, old =>
    if old.isPrefixOf (c :: cs) then some 0
    else (Index cs old).map (fun j => j + 1)

/-- Go `strings.Replace(s, old, new, 1)`: the first occurrence of `old` replaced by `new`.
An empty `old` matches at the beginning of the string. -/
def ReplaceFirst (s old new : Str) : Str :=
  if old = new then s
  else
    match Index s old with
    | none => s
    | some j => s.take j ++ new ++ s.drop (j + old.length)

/-- The scan of `strings.ReplaceAll` for a non-empty `old`, from left to right over
non-overlapping matches: `skip` is the number of characters of the match just replaced that
are still to be passed over. -/
def replaceAllScan (old new : Str) : Nat → Str → Str
  | _, [] => []
  | skip + 1, _ :: cs => replaceAllScan old new skip cs
  | 0, c :: cs =>
    if old.isPrefixOf (c :: cs) then new ++ replaceAllScan old new (old.length - 1) cs
    else c :: replaceAllScan old new 0 cs

/-- Go `strings.ReplaceAll`: every non-overlapping occurrence of `old` replaced by `new`.
An empty `old` matches at the beginning of the string and after every UTF-8 sequence. -/
def ReplaceAll (s old new : Str) : Str :=
  if old = new then s
  else if old = [] then new ++ insertAfterRunes new 0 s
  else replaceAllScan old new 0 s

/-- Go `strings.Split(s, sep)` for a separator of one character: the pieces of `s` between
the separators; a string without a separator, also the empty one, is its own single piece. -/
def Split (s : Str) (sep : Nat) : List Str :=
  match s with
  | [] => [[]]
  | c :: cs =>
    if c = sep then [] :: Split cs sep
    else
      match Split cs sep with
      | [] => [[c]]
      | x :: xs => (c :: x) :: xs

/-- The value of a decimal digit. -/
def digitVal (c : Nat) : Option Nat :=
  if 48 ≤ c ∧ c ≤ 57 then some (c - 48) else none

/-- The value of a string of decimal digits, read from the left onto `acc`. -/
def parseDigits : Str → Nat → Option Nat
  | [], acc => some acc
  | c :: cs, acc =>
    match digitVal c with
    | none => none
    | some d => parseDigits cs (acc * 10 + d)

/-- Go `strconv.Atoi` on a 64-bit platform: an optional sign, then at least one decimal
digit and nothing else; a value outside the range of `int` is an error. -/
def Atoi (s : Str) : Option Int :=
  let neg : Bool := match s with
    | 45 :: _ => true
    | _ => false
  let body : Str := match s with
    | 45 :: r => r
    | 43 :: r => r
    | _ => s
  if body = [] then none
  else
    match parseDigits body 0 with
    | none => none
    | some n =>
      if neg then (if n ≤ 2 ^ 63 then some (-(n : Int)) else none)
      else (if n < 2 ^ 63 then some (n : Int) else none)

/-- The verb `%d` of `fmt.Sprintf` on an `int`. -/
def formatInt : Int → Str
  | Int.ofNat n => (Nat.toDigits 10 n).map Char.toNat
  | Int.negSucc n => 45 :: (Nat.toDigits 10 (n + 1)).map Char.toNat

/-! ## Package `server` -/

/-- The constant `Port` of `server/public.go`. -/
def Port : Str := "3001".toStr

/-- The constant `PublicBasePath` of `server/public.go`. -/
def PublicBasePath : Str := "/public".toStr

/-- The constant `Scheme` of `server/public.go`. -/
def Scheme : Str := "http".toStr

/-- The constant `Host` of `server/public.go`. -/
def Host : Str := "localhost".toStr

/-- The constant `BaseUrl` of `server/public.go`. -/
def BaseUrl : Str := Scheme ++ "://".toStr ++ Host ++ ":".toStr ++ Port

/-- `CreatePublicUrl` of `server/public.go`. -/
def CreatePublicUrl (store pathname : Str) : Str :=
  BaseUrl ++ Join [PublicBasePath, store, pathname]

/-- `CreatePublicDownloadUrl` of `server/public.go`. -/
def CreatePublicDownloadUrl (store pathname : Str) : Str :=
  CreatePublicUrl store pathname ++ "?download=1".toStr

/-- `CreateContentDisposition` of `server/headers.go`. -/
def CreateContentDisposition (pathname : Str) : Str :=
  "inline; filename=\"".toStr ++ Base pathname ++ "\"".toStr

/-- The constant `oneYearInSeconds` of `server/headers.go`. -/
def oneYearInSeconds : Int := 365 * 24 * 60 * 60

/-- The constant `fiveMinutesInSeconds` of `server/headers.go`. -/
def fiveMinutesInSeconds : Int := 5 * 60

/-- `CreateCacheControl` of `server/headers.go`; the format is
`"public, max-age=%d,s-maxage=%d"`. -/
def CreateCacheControl (maxAge : Str) : Str :=
  let num : Int := match Atoi maxAge with
    | some n => n
    | none => oneYearInSeconds
  let edge : Int := min num fiveMinutesInSeconds
  "public, max-age=".toStr ++ formatInt num ++ ",s-maxage=".toStr ++ formatInt edge

/-- What the handler of `AuthRequired` does with a request: it answers with a status and
a text and returns, or it sets the store id and calls `c.Next()`, or it panics. -/
inductive AuthResult where
  | rejected : Nat → Str → AuthResult
  | next : Str → AuthResult
  | panic : AuthResult
  deriving DecidableEq

/-- The handler of `AuthRequired` of `server/auth.go`, on the values `h` of the header
`Authorization`.  The read `p[3]` is a run-time panic when `p` has no index 3. -/
def AuthRequired (h : List Str) : AuthResult :=
  match h with
  | [] => AuthResult.rejected 401 "Authorization header is required".toStr
  | h0 :: _ =>
    let t := ReplaceAll h0 "Bearer ".toStr []
    let p := Split t 95
    if p.length < 3 then AuthResult.rejected 401 "Mailformed Authorization header".toStr
    else
      match p.get? 3 with
      | some id => AuthResult.next id
      | none => AuthResult.panic

/-! ## Package `provider`: random suffixes -/

/-- The constant `charset` of `provider/random.go`. -/
def charset : Str := "0123456789ABCDEFGHIJKLMNOPQRSTUVWXYZabcdefghijklmnopqrstuvwxyz".toStr

/-- A random source: the raw value behind the `i`-th call of `r.Intn`. -/
abbrev Rand := Nat → Nat

/-- `generateRandomString` of `provider/random.go`: `n` characters, the `i`-th being
`charset[r.Intn(len(charset))]`. -/
def generateRandomString (r : Rand) (n : Nat) : Str :=
  (List.range n).map (fun i => charset.getD (r i % charset.length) 48)

/-- `AddRandomSuffix` of `provider/random.go`. -/
def AddRandomSuffix (r : Rand) (pathname : Str) : Str :=
  let ext := Ext pathname
  let suffix := generateRandomString r 30
  ReplaceFirst pathname ext (45 :: suffix ++ ext)

/-! ## The environment: results, the file system, the key-value index -/

/-- The outcome of a call that can fail: a value, a returned error, or a run-time panic. -/
inductive Res (α : Type) where
  | ok : α → Res α
  | error : Res α
  | panic : Res α
  deriving DecidableEq

/-- The value an association list holds for a name. -/
def lookupKey {α : Type} (k : Str) : List (Str × α) → Option α
  | [] => none
  | (k', v) :: rest => if k = k' then some v else lookupKey k rest

/-- An association list without the entries of a name. -/
def eraseKey {α : Type} (k : Str) : List (Str × α) → List (Str × α)
  | [] => []
  | (k', v) :: rest => if k' = k then eraseKey k rest else (k', v) :: eraseKey k rest

/-- An association list in which a name holds a new value. -/
def setKey {α : Type} (k : Str) (v : α) (l : List (Str × α)) : List (Str × α) :=
  (k, v) :: eraseKey k l

/-- A file system: the regular files with their contents, and the directories, by name.
Every name the program uses is the result of `path.Join` under the content directory, so a
name stands for one file. -/
structure FileSystem where
  files : List (Str × Bytes)
  dirs : List Str
  deriving DecidableEq

/-- Whether a name is a regular file. -/
def FileSystem.isFile (fs : FileSystem) (name : Str) : Bool :=
  (lookupKey name fs.files).isSome

/-- Whether a name is a directory; the root and the working directory always are. -/
def FileSystem.isDir (fs : FileSystem) (name : Str) : Bool :=
  name = [47] || name = [46] || fs.dirs.contains name

/-- The parents of a directory, outermost first, and then the directory itself: every prefix
of a clean path that ends before a slash, then the path. -/
def dirChain (path : Str) : List Str :=
  (((List.range path.length).filter (fun i => 0 < i ∧ path.get? i = some 47)).map
    (fun i => path.take i)) ++ [path]

/-- Go `os.MkdirAll`: succeeds at once on a directory; fails when the name or one of its
parents is a regular file; otherwise creates the missing directories. -/
def MkdirAll (fs : FileSystem) (path : Str) : Option FileSystem :=
  if fs.isDir path then some fs
  else if (dirChain path).any (fun a => fs.isFile a) then none
  else some { fs with dirs := fs.dirs ++ (dirChain path).filter (fun a => !fs.isDir a) }

/-- Go `os.Create`: creates the file or truncates it; fails on a directory and when the
parent is not a directory. -/
def Create (fs : FileSystem) (name : Str) : Option FileSystem :=
  if fs.isDir name then none
  else if !fs.isDir (Dir name) then none
  else some { fs with files := setKey name [] fs.files }

/-- An `io.ReadCloser`: the body of a request, or a file opened by `os.Open`. -/
inductive Reader where
  | bytes : Bytes → Reader
  | file : Str → Reader
  deriving DecidableEq

/-- Everything a reader yields until end of file, at the moment it is read.  Reading an
opened directory is an error. -/
def readAll (fs : FileSystem) : Reader → Option Bytes
  | Reader.bytes b => some b
  | Reader.file name => lookupKey name fs.files

/-- Go `os.Open`: succeeds on a file and on a directory. -/
def Open (fs : FileSystem) (name : Str) : Option Reader :=
  if fs.isFile name || fs.isDir name then some (Reader.file name) else none

/-- Go `os.Remove`: removes a file, or a directory with nothing in it. -/
def Remove (fs : FileSystem) (name : Str) : Option FileSystem :=
  if fs.isFile name then some { fs with files := eraseKey name fs.files }
  else if fs.dirs.contains name
      && !(fs.files.any (fun e => (name ++ [47]).isPrefixOf e.1))
      && !(fs.dirs.any (fun d => (name ++ [47]).isPrefixOf d)) then
    some { fs with dirs := fs.dirs.filter (fun d => d ≠ name) }
  else none

/-! ## Package `provider`: the content store -/

/-- `FileProvider` of `provider/file.go`. -/
structure FileProvider where
  dir : Str
  deriving DecidableEq

/-- `FileProvider.Put` of `provider/file.go`: the result is `(size, relPath)` when `io.Copy`
ended without error.  The file system changes also when the call fails later on. -/
def FileProvider.Put (p : FileProvider) (store pathname : Str) (data : Reader)
    (fs : FileSystem) : Res (Int × Str) × FileSystem :=
  let relPath := Join [store, pathname]
  let pathname := Join [p.dir, relPath]
  match MkdirAll fs (Dir pathname) with
  | none => (Res.error, fs)
  | some fs1 =>
    match Create fs1 pathname with
    | none => (Res.error, fs1)
    | some fs2 =>
      match readAll fs2 data with
      | none => (Res.error, fs2)
      | some b => (Res.ok ((b.length : Int), relPath), { fs2 with files := setKey pathname b fs2.files })

/-- `FileProvider.Del` of `provider/file.go`. -/
def FileProvider.Del (p : FileProvider) (pathname : Str) (fs : FileSystem) : Option FileSystem :=
  Remove fs (Join [p.dir, pathname])

/-- `FileProvider.Get` of `provider/file.go`. -/
def FileProvider.Get (p : FileProvider) (pathname : Str) (fs : FileSystem) : Option Reader :=
  Open fs (Join [p.dir, pathname])

/-! ## Package `provider`: objects and the metadata index -/

/-- `Object` of `provider/object.go`.  The field `fp` is a pointer and may be nil. -/
structure Object where
  Url : Str
  DownloadUrl : Str
  Size : Int
  UploadedAt : Str
  Pathname : Str
  ContentType : Str
  ContentDisposition : Str
  CacheControl : Str
  FilePath : Str
  fp : Option FileProvider
  deriving DecidableEq

/-- `Object.GetFile` of `provider/object.go`.  With a nil `fp` the call `o.fp.Get` reads
`p.dir` through a nil pointer. -/
def Object.GetFile (o : Object) (fs : FileSystem) : Res Reader :=
  match o.fp with
  | none => Res.panic
  | some fp =>
    match fp.Get o.FilePath fs with
    | none => Res.error
    | some file => Res.ok file

/-- What `json.Unmarshal` finds in the text that `json.Marshal` wrote for an `Object`: its
exported fields.  The unexported field `fp` is not part of it. -/
structure JsonObject where
  Url : Str
  DownloadUrl : Str
  Size : Int
  UploadedAt : Str
  Pathname : Str
  ContentType : Str
  ContentDisposition : Str
  CacheControl : Str
  FilePath : Str
  deriving DecidableEq

/-- The `json.Marshal` call of `MetadataProvider.Put`: every string field is written
coerced to valid UTF-8, the number as it is. -/
def marshal (o : Object) : JsonObject :=
  { Url := toValidUTF8 o.Url, DownloadUrl := toValidUTF8 o.DownloadUrl, Size := o.Size,
    UploadedAt := toValidUTF8 o.UploadedAt, Pathname := toValidUTF8 o.Pathname,
    ContentType := toValidUTF8 o.ContentType,
    ContentDisposition := toValidUTF8 o.ContentDisposition,
    CacheControl := toValidUTF8 o.CacheControl, FilePath := toValidUTF8 o.FilePath }

/-- `parseObject` of `provider/metadata.go`: `json.Unmarshal` into a fresh `Object`, whose
`fp` stays nil. -/
def parseObject (j : JsonObject) : Object :=
  { Url := j.Url, DownloadUrl := j.DownloadUrl, Size := j.Size, UploadedAt := j.UploadedAt,
    Pathname := j.Pathname, ContentType := j.ContentType,
    ContentDisposition := j.ContentDisposition, CacheControl := j.CacheControl,
    FilePath := j.FilePath, fp := none }

/-- The order of the index keys: lexicographic. -/
def strLt : Str → Str → Bool
  | _, [] => false
  | [], _ :: _ => true
  | a :: as, b :: bs => decide (a < b) || (a = b && strLt as bs)

/-- The key-value index: the entries in key order. -/
abbrev Db := List (Str × JsonObject)

/-- The `txn.Set` of the index: the entry is replaced, or added at its place in the order. -/
def dbSet (k : Str) (v : JsonObject) : Db → Db
  | [] => [(k, v)]
  | (k', v') :: rest =>
    if k = k' then (k, v) :: rest
    else if strLt k k' then (k, v) :: (k', v') :: rest
    else (k', v') :: dbSet k v rest

/-- `MetadataProvider.Put` of `provider/metadata.go`: the record is marshalled and set under
the key. -/
def MetadataProvider.Put (key : Str) (object : Object) (db : Db) : Db :=
  dbSet key (marshal object) db

/-- `MetadataProvider.Get` of `provider/metadata.go`; a key without a value is the error
`ErrKeyNotFound` of `txn.Get`. -/
def MetadataProvider.Get (key : Str) (db : Db) : Res Object :=
  match lookupKey key db with
  | none => Res.error
  | some j => Res.ok (parseObject j)

/-- `MetadataProvider.Del` of `provider/metadata.go`. -/
def MetadataProvider.Del (key : Str) (db : Db) : Db :=
  eraseKey key db

/-- `MetadataProvider.List` of `provider/metadata.go`: seek to the first key not below the
prefix, and go on while the key has the prefix. -/
def MetadataProvider.List (pre : Str) (db : Db) : List Object :=
  (((db.dropWhile (fun e => strLt e.1 pre)).takeWhile (fun e => pre.isPrefixOf e.1)).map
    (fun e => parseObject e.2))

/-! ## Package `provider`: the object store -/

/-- The state the object store works on: the content directory and the metadata index. -/
structure World where
  fs : FileSystem
  db : Db
  deriving DecidableEq

/-- `ObjectProvider` of `provider/object.go`; its `mp` is the index of the `World`. -/
structure ObjectProvider where
  fp : FileProvider
  deriving DecidableEq

/-- `PutOptions` of `provider/object.go`. -/
structure PutOptions where
  Pathname : Str
  Data : Reader
  AddRandomSuffix : Bool
  ContentType : Str
  CacheControlMaxAge : Str

/-- `CopyOptions` of `provider/object.go`. -/
structure CopyOptions where
  Pathname : Str
  AddRandomSuffix : Bool
  ContentType : Str
  CacheControlMaxAge : Str

/-- The pathname `ObjectProvider.Put` writes to: the given one, or the suffixed one. -/
def onDiskPathname (r : Rand) (options : PutOptions) : Str :=
  if options.AddRandomSuffix then AddRandomSuffix r options.Pathname else options.Pathname

/-- `ObjectProvider.Put` of `provider/object.go`.  `r` is the random source of
`AddRandomSuffix` and `now` is `time.Now().Format(time.RFC3339)`. -/
def ObjectProvider.Put (p : ObjectProvider) (store : Str) (options : PutOptions)
    (r : Rand) (now : Str) (w : World) : Res Object × World :=
  let pathname := onDiskPathname r options
  match p.fp.Put store pathname options.Data w.fs with
  | (Res.ok (size, filepath), fs') =>
    let url := CreatePublicUrl store pathname
    let o : Object :=
      { Pathname := options.Pathname
        Size := size
        Url := url
        DownloadUrl := CreatePublicDownloadUrl store pathname
        UploadedAt := now
        ContentType := options.ContentType
        ContentDisposition := CreateContentDisposition options.Pathname
        CacheControl := CreateCacheControl options.CacheControlMaxAge
        FilePath := filepath
        fp := some p.fp }
    (Res.ok o, { fs := fs', db := MetadataProvider.Put url o w.db })
  | (_, fs') => (Res.error, { fs := fs', db := w.db })

/-- `ObjectProvider.Get` of `provider/object.go`. -/
def ObjectProvider.Get (_p : ObjectProvider) (url : Str) (w : World) : Res Object :=
  match MetadataProvider.Get url w.db with
  | Res.ok o => Res.ok o
  | _ => Res.error

/-- The body of the loop of `ObjectProvider.Del`, for one URL. -/
def ObjectProvider.delOne (p : ObjectProvider) (w : World) (url : Str) : World :=
  match MetadataProvider.Get url w.db with
  | Res.ok o =>
    let db' := MetadataProvider.Del url w.db
    match p.fp.Del o.FilePath w.fs with
    | some fs' => { fs := fs', db := db' }
    | none => { fs := w.fs, db := db' }
  | _ => w

/-- `ObjectProvider.Del` of `provider/object.go`. -/
def ObjectProvider.Del (p : ObjectProvider) (urls : List Str) (w : World) : World :=
  urls.foldl p.delOne w

/-- `ObjectProvider.Copy` of `provider/object.go`. -/
def ObjectProvider.Copy (p : ObjectProvider) (store : Str) (fromUrl : Str)
    (options : CopyOptions) (r : Rand) (now : Str) (w : World) : Res Object × World :=
  match MetadataProvider.Get fromUrl w.db with
  | Res.ok fromO =>
    match p.fp.Get fromO.FilePath w.fs with
    | some file =>
      p.Put store
        { Pathname := options.Pathname
          Data := file
          AddRandomSuffix := options.AddRandomSuffix
          ContentType := options.ContentType
          CacheControlMaxAge := options.CacheControlMaxAge } r now w
    | none => (Res.error, w)
  | _ => (Res.error, w)

/-- `ObjectProvider.List` of `provider/object.go`. -/
def ObjectProvider.List (_p : ObjectProvider) (store : Str) (w : World) : Res (List Object) :=
  Res.ok (MetadataProvider.List (CreatePublicUrl store []) w.db)

/-- `NewFileProvider` followed by `NewMetadataProvider` on an empty disk: the content
directory exists, nothing is stored. -/
def World.init (dir : Str) : World :=
  { fs := { files := [], dirs := dirChain dir }, db := [] }

/-- The file the download handler serves for a URL (`Download.Handle` of
`operation/download.go`): the object is looked up, its file opened with `Object.GetFile`
and read to the end. -/
def Download (p : ObjectProvider) (publicUrl : Str) (w : World) : Res Bytes :=
  match p.Get publicUrl w with
  | Res.ok object =>
    match object.GetFile w.fs with
    | Res.ok file =>
      match readAll w.fs file with
      | some b => Res.ok b
      | none => Res.error
    | Res.error => Res.error
    | Res.panic => Res.panic
  | _ => Res.error

/-- The object `ObjectProvider.Put` assembles. -/
def putObject (p : ObjectProvider) (store : Str) (options : PutOptions) (r : Rand)
    (now : Str) (size : Int) (filepath : Str) : Object :=
  { Pathname := options.Pathname
    Size := size
    Url := CreatePublicUrl store (onDiskPathname r options)
    DownloadUrl := CreatePublicDownloadUrl store (onDiskPathname r options)
    UploadedAt := now
    ContentType := options.ContentType
    ContentDisposition := CreateContentDisposition options.Pathname
    CacheControl := CreateCacheControl options.CacheControlMaxAge
    FilePath := filepath
    fp := some p.fp }

/-! ## Shapes of paths -/

/-- An element that `path.Clean` keeps as it is: not empty, not `.` and not `..`. -/
abbrev PlainElem (seg : Str) : Prop := seg ≠ [] ∧ seg ≠ [46] ∧ seg ≠ dotdot

/-- A path that is made of plain elements with one slash between two neighbours: it is not
empty, has no leading, trailing or doubled slash, and no `.` or `..` element. -/
abbrev PlainPath (s : Str) : Prop := ∀ seg ∈ splitSlash s, PlainElem seg

/-- The suffix of a text that starts at its final dot; empty when it has no dot. -/
def fromFinalDot : Str → Str
  | [] => []
  | c :: cs => if cs.contains 46 then fromFinalDot cs else if c = 46 then c :: cs else []

/-- The extension in the words of the specification: the suffix of the path that starts at
the final dot of its final slash-separated element, empty when that element has no dot. -/
def specExt (p : Str) : Str := fromFinalDot ((splitSlash p).getLast?.getD [])

/-- The URL in the words of the specification: the plain concatenation
`baseUrl + "/public/" + store + "/" + pathname`. -/
def concatPublicUrl (store pathname : Str) : Str :=
  "http://localhost:3001".toStr ++ "/public/".toStr ++ store ++ "/".toStr ++ pathname

/-- Every element with a slash in front of it. -/
def joinAfter : List Str → Str
  | [] => []
  | s :: ss => 47 :: s ++ joinAfter ss

/-- Every element with a slash behind it. -/
def joinBefore : List Str → Str
  | [] => []
  | s :: ss => s ++ 47 :: joinBefore ss

/-- Whether the elements of a path never remove, with a `..`, more than the `depth`
elements before them and the ones they bring themselves: an empty element and `.` change
nothing, another element adds one, `..` removes one and must find one to remove. -/
def keepsDepth : Nat → List Str → Bool
  | _, [] => true
  | depth, s :: ss =>
    if s = [] ∨ s = [46] then keepsDepth depth ss
    else if s = dotdot then
      match depth with
      | 0 => false
      | d + 1 => keepsDepth d ss
    else keepsDepth (depth + 1) ss

/-- The place where `AddRandomSuffix` puts the suffix: the first occurrence of the
extension in the pathname. -/
def suffixPosition (P : Str) : Nat := (Index P (Ext P)).getD 0

/-- The elements of a pathname after the element that receives the suffix. -/
def elementsAfterSuffix (P : Str) : List Str :=
  (splitSlash (P.drop (suffixPosition P))).tail

/-- The element that receives the suffix is not cancelled by a later `..`: every `..` after
it finds an element after it to remove. -/
abbrev SuffixSurvives (P : Str) : Prop := keepsDepth 0 (elementsAfterSuffix P) = true

/-- What `path.Clean` makes of the beginning `c` of a path that goes on inside an element:
the cleaned elements before the last one of `c`, each with its slash, and the last one
unchanged. -/
def cleanPrefix (c : Str) : Str :=
  (if isRooted c then [47] else [])
    ++ joinBefore (cleanSegs (isRooted c) (splitSlash c).dropLast).reverse
    ++ (splitSlash c).getLast?.getD []

/-- The path that `path.Join` cleans for two elements. -/
def joinTwo (a c : Str) : Str := if a = [] then c else a ++ 47 :: c

/-! ## Example inputs -/

/-- The provider of `main.go` on a machine whose temporary directory is `/tmp`. -/
def exampleProvider : ObjectProvider := { fp := { dir := "/tmp/blob_fs".toStr } }

/-- The state right after start-up. -/
def exampleWorld : World := World.init "/tmp/blob_fs".toStr

/-- The five bytes of `hello`. -/
def helloBytes : Bytes := [104, 101, 108, 108, 111]

/-- A random source. -/
def rand1 : Rand := fun i => i * 7

/-- Another random source. -/
def rand2 : Rand := fun i => i * 11 + 3

/-- A time stamp. -/
def exampleNow : Str := "2024-01-01T00:00:00Z".toStr

/-- Options of a plain `Put` of `hello` at `a.txt`. -/
def putHelloOptions : PutOptions :=
  { Pathname := "a.txt".toStr, Data := Reader.bytes helloBytes, AddRandomSuffix := false,
    ContentType := "text/plain".toStr, CacheControlMaxAge := [] }

/-- Options of a `Put` of `hello` at `images/cat.png` with a random suffix. -/
def putCatOptions : PutOptions :=
  { Pathname := "images/cat.png".toStr, Data := Reader.bytes helloBytes,
    AddRandomSuffix := true, ContentType := "image/png".toStr,
    CacheControlMaxAge := "600".toStr }

/-- The state after `hello` was put at `a.txt` in store `s`. -/
def worldAfterPutHello : World :=
  (exampleProvider.Put "s".toStr putHelloOptions rand1 exampleNow exampleWorld).2

/-- The URL of `a.txt` in store `s`. -/
def helloUrl : Str := "http://localhost:3001/public/s/a.txt".toStr

/-- Options of a plain `Put` of `hello` at `q`. -/
def putQOptions : PutOptions :=
  { Pathname := "q".toStr, Data := Reader.bytes helloBytes, AddRandomSuffix := false,
    ContentType := [], CacheControlMaxAge := [] }

/-- The state after `hello` was put at `a.txt` in store `s` and then at `q` in store `sx`. -/
def worldTwoStores : World :=
  (exampleProvider.Put "sx".toStr putQOptions rand1 exampleNow worldAfterPutHello).2

/-- Options of a `Copy` whose destination is `a.txt`, the pathname of the source. -/
def copyOntoSourceOptions : CopyOptions :=
  { Pathname := "a.txt".toStr, AddRandomSuffix := false,
    ContentType := "text/plain".toStr, CacheControlMaxAge := [] }

/-- Options of a `Copy` whose destination pathname climbs out of the store and back. -/
def copyAliasOptions : CopyOptions :=
  { Pathname := "../../blob_fs/s/a.txt".toStr, AddRandomSuffix := false,
    ContentType := "text/plain".toStr, CacheControlMaxAge := [] }

/-- The state after `a.txt` of store `s` was copied to `../../blob_fs/s/a.txt`. -/
def worldAfterAliasCopy : World :=
  (exampleProvider.Copy "s".toStr helloUrl copyAliasOptions rand1 exampleNow
    worldAfterPutHello).2

/-- Options of a `Put` with a random suffix at `a/../b`. -/
def putDotDotOptions (B : Bytes) : PutOptions :=
  { Pathname := "a/../b".toStr, Data := Reader.bytes B, AddRandomSuffix := true,
    ContentType := [], CacheControlMaxAge := [] }

/-- Options of a `Put` of a payload at a pathname with a random suffix. -/
def putSuffixedOptions (P : Str) (B : Bytes) (contentType maxAge : Str) : PutOptions :=
  { Pathname := P, Data := Reader.bytes B, AddRandomSuffix := true,
    ContentType := contentType, CacheControlMaxAge := maxAge }

/-- The state after `hello` was put at `images/cat.png` of store `s` with a suffix. -/
def worldAfterPutCat : World :=
  (exampleProvider.Put "s".toStr putCatOptions rand1 exampleNow worldAfterPutHello).2

/-- The object that `Put` returned. -/
def catObject : Object :=
  putObject exampleProvider "s".toStr putCatOptions rand1 exampleNow 5
    "s/images/cat-07ELSZgnu18FMTahov29GNUbipw3AH.png".toStr

/-- The state after the first of two suffixed `Put` calls at `images/cat.png`. -/
def worldSuffixed1 : World :=
  (exampleProvider.Put "s".toStr (putSuffixedOptions "images/cat.png".toStr helloBytes [] [])
    rand1 exampleNow exampleWorld).2

/-- The state after the second of two suffixed `Put` calls at `images/cat.png`. -/
def worldSuffixed2 : World :=
  (exampleProvider.Put "s".toStr (putSuffixedOptions "images/cat.png".toStr [1] [] [])
    rand2 exampleNow worldSuffixed1).2

/-- The object the first suffixed `Put` returned. -/
def suffixedObject1 : Object :=
  putObject exampleProvider "s".toStr
    (putSuffixedOptions "images/cat.png".toStr helloBytes [] []) rand1 exampleNow 5
    "s/images/cat-07ELSZgnu18FMTahov29GNUbipw3AH.png".toStr

/-- The object the second suffixed `Put` returned. -/
def suffixedObject2 : Object :=
  putObject exampleProvider "s".toStr
    (putSuffixedOptions "images/cat.png".toStr [1] [] []) rand2 exampleNow 1
    "s/images/cat-3EPalw7ITep0BMXit4FQbmx8JUfq1C.png".toStr

/-- Options of a plain `Put` of `hello` at the pathname `\xff.txt`, whose first byte is not
valid UTF-8 (the request `PUT /api/%FF.txt`). -/
def putBadOptions : PutOptions :=
  { Pathname := "\xff.txt".toStr, Data := Reader.bytes helloBytes, AddRandomSuffix := false,
    ContentType := "text/plain".toStr, CacheControlMaxAge := [] }

/-- The state after `hello` was put at `\xff.txt` in store `s`. -/
def worldAfterPutBad : World :=
  (exampleProvider.Put "s".toStr putBadOptions rand1 exampleNow exampleWorld).2

/-- The object that `Put` returned. -/
def badObject : Object :=
  putObject exampleProvider "s".toStr putBadOptions rand1 exampleNow 5 "s/\xff.txt".toStr

/-- The URL of `\xff.txt` in store `s`, the key of its record. -/
def badUrl : Str := "http://localhost:3001/public/s/\xff.txt".toStr

/-- The URL of `\xff.txt` in store `s` as JSON keeps it, with U+FFFD for the byte `FF`. -/
def coercedBadUrl : Str := "http://localhost:3001/public/s/\xef\xbf\xbd.txt".toStr

/-- A string of a stored record against the string that was marshalled: it is that string
coerced to valid UTF-8, and so the same string exactly when that one is valid UTF-8. -/
def StoredAs (stored given : Str) : Prop :=
  stored = toValidUTF8 given ∧ (stored = given ↔ utf8Valid given = true)

/-! ## Reachable states -/

/-- The states the object store can be in: the initial one, and any state a `Put`, `Copy`
or `Del` call leaves behind, whether the call succeeded or not. -/
inductive Reachable (p : ObjectProvider) : World → Prop where
  | init : Reachable p (World.init p.fp.dir)
  | put (w : World) (store : Str) (options : PutOptions) (r : Rand) (now : Str) :
      Reachable p w → Reachable p (p.Put store options r now w).2
  | copy (w : World) (store fromUrl : Str) (options : CopyOptions) (r : Rand) (now : Str) :
      Reachable p w → Reachable p (p.Copy store fromUrl options r now w).2
  | del (w : World) (urls : List Str) :
      Reachable p w → Reachable p (p.Del urls w)

/-- Every record of the index holds, as its `Url`, the key it is stored under as JSON keeps
it: coerced to valid UTF-8. -/
def KeyedByUrl (db : Db) : Prop := ∀ e ∈ db, e.2.Url = toValidUTF8 e.1

/-- The keys of the index are in strictly increasing order. -/
def SortedKeys (db : Db) : Prop := db.Pairwise (fun a b => strLt a.1 b.1 = true)

/-! ## Association lists and the index -/

theorem lookupKey_eq_none {α : Type} (k : Str) (l : List (Str × α)) :
    lookupKey k l = none ↔ ∀ e ∈ l, e.1 ≠ k := by
  induction l with
  | nil => simp [lookupKey]
  | cons e rest ih =>
    obtain ⟨k', v⟩ := e
    by_cases hk : k = k'
    · rw [lookupKey, if_pos hk]
      constructor
      · intro h
        cases h
      · intro h
        exact absurd hk.symm (h (k', v) (List.mem_cons_self _ _))
    · rw [lookupKey, if_neg hk, ih]
      constructor
      · intro h e he
        rcases List.mem_cons.mp he with h1 | h1
        · rw [h1]
          exact fun h2 => hk h2.symm
        · exact h e h1
      · intro h e he
        exact h e (List.mem_cons_of_mem _ he)

theorem lookupKey_mem {α : Type} (k : Str) (l : List (Str × α)) (v : α)
    (h : lookupKey k l = some v) : (k, v) ∈ l := by
  induction l with
  | nil => simp [lookupKey] at h
  | cons e rest ih =>
    obtain ⟨k', v'⟩ := e
    by_cases hk : k = k'
    · rw [lookupKey, if_pos hk] at h
      cases h
      rw [hk]
      exact List.mem_cons_self _ _
    · rw [lookupKey, if_neg hk] at h
      exact List.mem_cons_of_mem _ (ih h)

theorem mem_eraseKey {α : Type} (k : Str) (l : List (Str × α)) (e : Str × α) :
    e ∈ eraseKey k l ↔ e ∈ l ∧ e.1 ≠ k := by
  induction l with
  | nil => simp [eraseKey]
  | cons e' rest ih =>
    obtain ⟨k', v'⟩ := e'
    by_cases hk : k' = k
    · rw [eraseKey, if_pos hk, ih]
      constructor
      · rintro ⟨h1, h2⟩
        exact ⟨List.mem_cons_of_mem _ h1, h2⟩
      · rintro ⟨h1, h2⟩
        rcases List.mem_cons.mp h1 with h | h
        · exact absurd (by rw [h]; exact hk) h2
        · exact ⟨h, h2⟩
    · rw [eraseKey, if_neg hk, List.mem_cons, ih, List.mem_cons]
      constructor
      · rintro (h | ⟨h1, h2⟩)
        · exact ⟨Or.inl h, by rw [h]; exact hk⟩
        · exact ⟨Or.inr h1, h2⟩
      · rintro ⟨h1 | h1, h2⟩
        · exact Or.inl h1
        · exact Or.inr ⟨h1, h2⟩

theorem lookupKey_eraseKey_self {α : Type} (k : Str) (l : List (Str × α)) :
    lookupKey k (eraseKey k l) = none := by
  rw [lookupKey_eq_none]
  intro e he
  exact ((mem_eraseKey k l e).mp he).2

theorem lookupKey_eraseKey_ne {α : Type} (k k' : Str) (l : List (Str × α)) (h : k ≠ k') :
    lookupKey k (eraseKey k' l) = lookupKey k l := by
  induction l with
  | nil => simp [eraseKey, lookupKey]
  | cons e rest ih =>
    obtain ⟨k2, v⟩ := e
    by_cases h2 : k2 = k'
    · have hk : k ≠ k2 := by rw [h2]; exact h
      rw [eraseKey, if_pos h2, ih, lookupKey, if_neg hk]
    · rw [eraseKey, if_neg h2]
      by_cases hk : k = k2
      · rw [lookupKey, if_pos hk, lookupKey, if_pos hk]
      · rw [lookupKey, if_neg hk, lookupKey, if_neg hk, ih]

theorem lookupKey_setKey_self {α : Type} (k : Str) (v : α) (l : List (Str × α)) :
    lookupKey k (setKey k v l) = some v := by
  simp [setKey, lookupKey]

theorem lookupKey_setKey_ne {α : Type} (k k' : Str) (v : α) (l : List (Str × α))
    (h : k ≠ k') : lookupKey k (setKey k' v l) = lookupKey k l := by
  rw [setKey, lookupKey, if_neg h, lookupKey_eraseKey_ne k k' l h]

theorem eraseKey_of_lookupKey_none {α : Type} (k : Str) (l : List (Str × α))
    (h : lookupKey k l = none) : eraseKey k l = l := by
  induction l with
  | nil => rfl
  | cons e rest ih =>
    obtain ⟨k', v⟩ := e
    by_cases hk : k = k'
    · rw [lookupKey, if_pos hk] at h
      cases h
    · rw [lookupKey, if_neg hk] at h
      rw [eraseKey, if_neg (fun h' => hk h'.symm), ih h]

theorem lookupKey_dbSet_self (k : Str) (v : JsonObject) (db : Db) :
    lookupKey k (dbSet k v db) = some v := by
  induction db with
  | nil => simp [dbSet, lookupKey]
  | cons e rest ih =>
    obtain ⟨k', v'⟩ := e
    by_cases hk : k = k'
    · simp [dbSet, hk, lookupKey]
    · by_cases hl : strLt k k' = true
      · simp [dbSet, hk, hl, lookupKey]
      · simp [dbSet, hk, hl, lookupKey, ih]

theorem lookupKey_dbSet_ne (k k' : Str) (v : JsonObject) (db : Db) (h : k ≠ k') :
    lookupKey k (dbSet k' v db) = lookupKey k db := by
  induction db with
  | nil => simp [dbSet, lookupKey, h]
  | cons e rest ih =>
    obtain ⟨k2, v2⟩ := e
    by_cases hk : k' = k2
    · have h2 : k ≠ k2 := by rw [← hk]; exact h
      simp [dbSet, hk, lookupKey, h2]
    · by_cases hl : strLt k' k2 = true
      · simp [dbSet, hk, hl, lookupKey, h]
      · by_cases h2 : k = k2
        · simp [dbSet, hk, hl, lookupKey, h2]
        · simp [dbSet, hk, hl, lookupKey, h2, ih]

theorem mem_dbSet (k : Str) (v : JsonObject) (db : Db) (e : Str × JsonObject)
    (h : e ∈ dbSet k v db) : e = (k, v) ∨ e ∈ db := by
  induction db with
  | nil => simpa [dbSet] using h
  | cons e' rest ih =>
    obtain ⟨k', v'⟩ := e'
    by_cases hk : k = k'
    · simp [dbSet, hk] at h
      rcases h with h | h
      · left; rw [h, hk]
      · right; exact List.mem_cons_of_mem _ h
    · by_cases hl : strLt k k' = true
      · simp [dbSet, hk, hl] at h
        rcases h with h | h | h
        · left; exact h
        · right; rw [h]; exact List.mem_cons_self _ _
        · right; exact List.mem_cons_of_mem _ h
      · simp [dbSet, hk, hl] at h
        rcases h with h | h
        · right; rw [h]; exact List.mem_cons_self _ _
        · rcases ih h with h | h
          · left; exact h
          · right; exact List.mem_cons_of_mem _ h

/-! ## What a successful call has done -/

theorem FileProvider_Put_ok (p : FileProvider) (store pathname : Str) (data : Reader)
    (fs fs' : FileSystem) (size : Int) (rel : Str)
    (h : p.Put store pathname data fs = (Res.ok (size, rel), fs')) :
    rel = Join [store, pathname] ∧
    ∃ fs1 fs2 b, MkdirAll fs (Dir (Join [p.dir, rel])) = some fs1 ∧
      Create fs1 (Join [p.dir, rel]) = some fs2 ∧
      readAll fs2 data = some b ∧ size = (b.length : Int) ∧
      fs' = { fs2 with files := setKey (Join [p.dir, rel]) b fs2.files } := by
  unfold FileProvider.Put at h
  simp only at h
  cases h1 : MkdirAll fs (Dir (Join [p.dir, Join [store, pathname]])) with
  | none => rw [h1] at h; simp at h
  | some fs1 =>
    rw [h1] at h
    simp only at h
    cases h2 : Create fs1 (Join [p.dir, Join [store, pathname]]) with
    | none => rw [h2] at h; simp at h
    | some fs2 =>
      rw [h2] at h
      simp only at h
      cases h3 : readAll fs2 data with
      | none => rw [h3] at h; simp at h
      | some b =>
        rw [h3] at h
        simp only [Prod.mk.injEq, Res.ok.injEq] at h
        obtain ⟨⟨hs, hr⟩, hf⟩ := h
        subst hr
        refine ⟨rfl, fs1, fs2, b, h1, h2, h3, hs.symm, hf.symm⟩

theorem ObjectProvider_Put_ok (p : ObjectProvider) (store : Str) (options : PutOptions)
    (r : Rand) (now : Str) (w w' : World) (o : Object)
    (h : p.Put store options r now w = (Res.ok o, w')) :
    ∃ size filepath fs',
      p.fp.Put store (onDiskPathname r options) options.Data w.fs
        = (Res.ok (size, filepath), fs') ∧
      o = putObject p store options r now size filepath ∧
      w' = { fs := fs', db := dbSet o.Url (marshal o) w.db } := by
  unfold ObjectProvider.Put at h
  simp only at h
  rcases hfp : p.fp.Put store (onDiskPathname r options) options.Data w.fs with ⟨res, fs'⟩
  rw [hfp] at h
  cases res with
  | ok sf =>
    obtain ⟨size, filepath⟩ := sf
    simp only [Prod.mk.injEq, Res.ok.injEq] at h
    obtain ⟨ho, hw⟩ := h
    refine ⟨size, filepath, fs', rfl, ?_, ?_⟩
    · rw [← ho]; rfl
    · rw [← hw, ← ho]; rfl
  | error => simp at h
  | panic => simp at h

theorem Put_db (p : ObjectProvider) (store : Str) (options : PutOptions)
    (r : Rand) (now : Str) (w : World) :
    (p.Put store options r now w).2.db = w.db ∨
    ∃ o, (p.Put store options r now w).1 = Res.ok o ∧
      o.Url = CreatePublicUrl store (onDiskPathname r options) ∧
      (p.Put store options r now w).2.db = dbSet o.Url (marshal o) w.db := by
  rcases hp : p.Put store options r now w with ⟨res, w'⟩
  cases res with
  | ok o =>
    right
    obtain ⟨size, filepath, fs', _, ho, hw⟩ := ObjectProvider_Put_ok p store options r now w w' o hp
    refine ⟨o, rfl, ?_, ?_⟩
    · rw [ho]; rfl
    · rw [hw]
  | error =>
    left
    unfold ObjectProvider.Put at hp
    simp only at hp
    rcases hfp : p.fp.Put store (onDiskPathname r options) options.Data w.fs with ⟨res, fs'⟩
    rw [hfp] at hp
    cases res with
    | ok sf => simp at hp
    | error => simp at hp; rw [← hp]
    | panic => simp at hp; rw [← hp]
  | panic =>
    left
    unfold ObjectProvider.Put at hp
    simp only at hp
    rcases hfp : p.fp.Put store (onDiskPathname r options) options.Data w.fs with ⟨res, fs'⟩
    rw [hfp] at hp
    cases res with
    | ok sf => simp at hp
    | error => simp at hp
    | panic => simp at hp

theorem Get_eq_ok (p : ObjectProvider) (url : Str) (w : World) (j : JsonObject)
    (h : lookupKey url w.db = some j) : p.Get url w = Res.ok (parseObject j) := by
  simp [ObjectProvider.Get, MetadataProvider.Get, h]

theorem Get_eq_error (p : ObjectProvider) (url : Str) (w : World)
    (h : lookupKey url w.db = none) : p.Get url w = Res.error := by
  simp [ObjectProvider.Get, MetadataProvider.Get, h]

theorem Copy_eq (p : ObjectProvider) (store fromUrl : Str) (options : CopyOptions)
    (r : Rand) (now : Str) (w : World) :
    p.Copy store fromUrl options r now w = (Res.error, w) ∨
    ∃ fromO file, MetadataProvider.Get fromUrl w.db = Res.ok fromO ∧
      p.fp.Get fromO.FilePath w.fs = some file ∧
      p.Copy store fromUrl options r now w =
        p.Put store { Pathname := options.Pathname, Data := file,
                      AddRandomSuffix := options.AddRandomSuffix,
                      ContentType := options.ContentType,
                      CacheControlMaxAge := options.CacheControlMaxAge } r now w := by
  unfold ObjectProvider.Copy
  cases h1 : MetadataProvider.Get fromUrl w.db with
  | ok fromO =>
    cases h2 : p.fp.Get fromO.FilePath w.fs with
    | some file =>
      right
      refine ⟨fromO, file, rfl, h2, ?_⟩
      simp only [h2]
    | none =>
      left
      simp only [h2]
  | error => left; rfl
  | panic => left; rfl

theorem delOne_db (p : ObjectProvider) (w : World) (url : Str) :
    (p.delOne w url).db = eraseKey url w.db := by
  unfold ObjectProvider.delOne MetadataProvider.Get MetadataProvider.Del
  cases h : lookupKey url w.db with
  | none => simp only; exact (eraseKey_of_lookupKey_none url w.db h).symm
  | some j =>
    simp only
    cases p.fp.Del (parseObject j).FilePath w.fs <;> rfl

theorem mem_Del_db (p : ObjectProvider) (urls : List Str) (w : World) (e : Str × JsonObject) :
    e ∈ (p.Del urls w).db ↔ e ∈ w.db ∧ e.1 ∉ urls := by
  unfold ObjectProvider.Del
  induction urls generalizing w with
  | nil => simp
  | cons u rest ih =>
    rw [List.foldl_cons, ih, delOne_db, mem_eraseKey, List.mem_cons, not_or]
    constructor
    · rintro ⟨⟨h1, h2⟩, h3⟩
      exact ⟨h1, h2, h3⟩
    · rintro ⟨h1, h2, h3⟩
      exact ⟨⟨h1, h2⟩, h3⟩

theorem mem_MetadataProvider_List (pre : Str) (db : Db) (o : Object)
    (h : o ∈ MetadataProvider.List pre db) : ∃ e ∈ db, o = parseObject e.2 := by
  unfold MetadataProvider.List at h
  rw [List.mem_map] at h
  obtain ⟨e, he, hoe⟩ := h
  exact ⟨e, (List.dropWhile_sublist _).subset ((List.takeWhile_sublist _).subset he), hoe.symm⟩

theorem KeyedByUrl_dbSet (o : Object) (db : Db) (h : KeyedByUrl db) :
    KeyedByUrl (dbSet o.Url (marshal o) db) := by
  intro e he
  rcases mem_dbSet _ _ _ _ he with h1 | h1
  · rw [h1]; rfl
  · exact h e h1

theorem KeyedByUrl_Put (p : ObjectProvider) (store : Str) (options : PutOptions)
    (r : Rand) (now : Str) (w : World) (h : KeyedByUrl w.db) :
    KeyedByUrl (p.Put store options r now w).2.db := by
  rcases Put_db p store options r now w with h1 | ⟨o, _, _, h1⟩
  · rw [h1]; exact h
  · rw [h1]; exact KeyedByUrl_dbSet o w.db h

theorem Reachable_KeyedByUrl (p : ObjectProvider) (w : World) (h : Reachable p w) :
    KeyedByUrl w.db := by
  induction h with
  | init => intro e he; cases he
  | put w store options r now _ ih => exact KeyedByUrl_Put p store options r now w ih
  | copy w store fromUrl options r now _ ih =>
    rcases Copy_eq p store fromUrl options r now w with h1 | ⟨_, _, _, _, h1⟩
    · rw [h1]; exact ih
    · rw [h1]; exact KeyedByUrl_Put p store _ r now w ih
  | del w urls _ ih =>
    intro e he
    exact ih e ((mem_Del_db p urls w e).mp he).1

/-! ## Splitting, joining and cleaning paths -/

theorem splitSlash_ne_nil (s : Str) : splitSlash s ≠ [] := by
  cases s with
  | nil => simp [splitSlash]
  | cons c cs =>
    by_cases hc : c = 47
    · simp [splitSlash, hc]
    · simp only [splitSlash, if_neg hc]
      cases splitSlash cs <;> simp

theorem splitSlash_cons_slash (s : Str) : splitSlash (47 :: s) = [] :: splitSlash s := by
  simp [splitSlash]

theorem splitSlash_cons_of_ne (c : Nat) (s : Str) (hc : c ≠ 47) :
    ∃ h t, splitSlash s = h :: t ∧ splitSlash (c :: s) = (c :: h) :: t := by
  cases hs : splitSlash s with
  | nil => exact absurd hs (splitSlash_ne_nil s)
  | cons h t =>
    refine ⟨h, t, rfl, ?_⟩
    simp only [splitSlash, if_neg hc, hs]

theorem joinSlash_cons_cons (s t : Str) (ss : List Str) :
    joinSlash (s :: t :: ss) = s ++ 47 :: joinSlash (t :: ss) := rfl

theorem joinSlash_cons_of_ne_nil (s : Str) (ss : List Str) (h : ss ≠ []) :
    joinSlash (s :: ss) = s ++ 47 :: joinSlash ss := by
  cases ss with
  | nil => exact absurd rfl h
  | cons t ts => rfl

theorem joinSlash_splitSlash (s : Str) : joinSlash (splitSlash s) = s := by
  induction s with
  | nil => rfl
  | cons c cs ih =>
    by_cases hc : c = 47
    · rw [hc, splitSlash_cons_slash, joinSlash_cons_of_ne_nil _ _ (splitSlash_ne_nil cs), ih]
      rfl
    · obtain ⟨h, t, h1, h2⟩ := splitSlash_cons_of_ne c cs hc
      rw [h2]
      rw [h1] at ih
      cases t with
      | nil =>
        simp only [joinSlash] at ih ⊢
        rw [ih]
      | cons t1 ts =>
        rw [joinSlash_cons_cons] at ih ⊢
        rw [← ih]
        rfl

theorem splitSlash_append_slash (a b : Str) :
    splitSlash (a ++ 47 :: b) = splitSlash a ++ splitSlash b := by
  induction a with
  | nil => simp [splitSlash]
  | cons c cs ih =>
    by_cases hc : c = 47
    · rw [hc, List.cons_append, splitSlash_cons_slash, splitSlash_cons_slash, ih]
      rfl
    · obtain ⟨h, t, h1, h2⟩ := splitSlash_cons_of_ne c cs hc
      obtain ⟨h', t', h1', h2'⟩ := splitSlash_cons_of_ne c (cs ++ 47 :: b) hc
      rw [List.cons_append, h2', h2]
      rw [ih, h1] at h1'
      simp only [List.cons_append, List.cons.injEq] at h1'
      rw [← h1'.1, ← h1'.2]
      rfl

theorem mem_splitSlash_no_slash (s seg : Str) (h : seg ∈ splitSlash s) : 47 ∉ seg := by
  induction s generalizing seg with
  | nil =>
    simp only [splitSlash, List.mem_singleton] at h
    rw [h]; exact List.not_mem_nil _
  | cons c cs ih =>
    by_cases hc : c = 47
    · rw [hc, splitSlash_cons_slash] at h
      rcases List.mem_cons.mp h with h1 | h1
      · rw [h1]; exact List.not_mem_nil _
      · exact ih seg h1
    · obtain ⟨hd, t, h1, h2⟩ := splitSlash_cons_of_ne c cs hc
      rw [h2] at h
      rcases List.mem_cons.mp h with h3 | h3
      · rw [h3]
        intro hmem
        rcases List.mem_cons.mp hmem with h4 | h4
        · exact hc h4.symm
        · exact ih hd (by rw [h1]; exact List.mem_cons_self _ _) h4
      · exact ih seg (by rw [h1]; exact List.mem_cons_of_mem _ h3)

theorem cleanStep_plain (rooted : Bool) (out : List Str) (seg : Str) (h : PlainElem seg) :
    cleanStep rooted out seg = seg :: out := by
  simp only [cleanStep, if_neg h.1, if_neg h.2.1, if_neg h.2.2]

theorem foldl_cleanStep_plain (rooted : Bool) (segs out : List Str)
    (h : ∀ seg ∈ segs, PlainElem seg) :
    segs.foldl (cleanStep rooted) out = segs.reverse ++ out := by
  induction segs generalizing out with
  | nil => rfl
  | cons s ss ih =>
    rw [List.foldl_cons, cleanStep_plain rooted out s (h s (List.mem_cons_self _ _)),
      ih _ (fun seg hseg => h seg (List.mem_cons_of_mem _ hseg))]
    simp

theorem Clean_rooted_plain (t : Str) (h : PlainPath t) : Clean (47 :: t) = 47 :: t := by
  have hr : isRooted (47 :: t) = true := by simp [isRooted]
  simp only [Clean, hr, if_true, splitSlash_cons_slash, cleanSegs, List.foldl_cons]
  have h0 : cleanStep true [] [] = [] := by simp [cleanStep]
  rw [h0, foldl_cleanStep_plain true _ [] h]
  simp [joinSlash_splitSlash]

theorem Clean_plain (t : Str) (h : PlainPath t) : Clean t = t := by
  cases t with
  | nil =>
    have := h [] (by simp [splitSlash])
    exact absurd rfl this.1
  | cons c cs =>
    have hc : c ≠ 47 := by
      intro hc
      rw [hc] at h
      have := h [] (by rw [splitSlash_cons_slash]; exact List.mem_cons_self _ _)
      exact this.1 rfl
    have hr : isRooted (c :: cs) = false := by simp [isRooted, hc]
    have hne : splitSlash (c :: cs) ≠ [] := splitSlash_ne_nil _
    simp only [Clean, hr, cleanSegs]
    rw [foldl_cleanStep_plain false _ [] h]
    simp [joinSlash_splitSlash, hne]

theorem Join_cons_of_ne_nil (e : Str) (es : List Str) (h : e ≠ []) :
    Join (e :: es) = Clean (joinSlash (e :: es)) := by
  simp [Join, List.dropWhile_cons, h]

theorem Join_nil_cons (es : List Str) : Join ([] :: es) = Join es := by
  simp [Join, List.dropWhile_cons]

theorem PlainPath_append_slash (a b : Str) (ha : PlainPath a) (hb : PlainPath b) :
    PlainPath (a ++ 47 :: b) := by
  intro seg hseg
  rw [splitSlash_append_slash] at hseg
  rcases List.mem_append.mp hseg with h | h
  · exact ha seg h
  · exact hb seg h

theorem joinSlash_cons_eq_joinAfter (x : Str) (F : List Str) :
    joinSlash (x :: F) = x ++ joinAfter F := by
  induction F generalizing x with
  | nil => simp [joinSlash, joinAfter]
  | cons f F ih =>
    rw [joinSlash_cons_cons, ih f, joinAfter]
    simp

theorem joinSlash_append_cons (P : List Str) (x : Str) (F : List Str) :
    joinSlash (P ++ x :: F) = joinBefore P ++ x ++ joinAfter F := by
  induction P with
  | nil => simp [joinBefore, joinSlash_cons_eq_joinAfter]
  | cons q P ih =>
    have hne : P ++ x :: F ≠ [] := by simp
    rw [List.cons_append, joinSlash_cons_of_ne_nil _ _ hne, ih, joinBefore]
    simp [List.append_assoc]

theorem splitSlash_of_no_slash (s : Str) (h : 47 ∉ s) : splitSlash s = [s] := by
  induction s with
  | nil => rfl
  | cons c cs ih =>
    have hc : c ≠ 47 := fun hc => h (by rw [hc]; exact List.mem_cons_self _ _)
    have hcs : 47 ∉ cs := fun hm => h (List.mem_cons_of_mem _ hm)
    simp only [splitSlash, if_neg hc, ih hcs]

theorem splitSlash_append_joinAfter (x : Str) (F : List Str) (hx : 47 ∉ x)
    (hF : ∀ s ∈ F, 47 ∉ s) : splitSlash (x ++ joinAfter F) = x :: F := by
  induction F generalizing x with
  | nil => simp [joinAfter, splitSlash_of_no_slash x hx]
  | cons f F ih =>
    rw [joinAfter, List.cons_append, splitSlash_append_slash, splitSlash_of_no_slash x hx,
      ih f (hF f (List.mem_cons_self _ _)) (fun s hs => hF s (List.mem_cons_of_mem _ hs))]
    rfl

theorem splitSlash_joinBefore_append (P : List Str) (x : Str) (F : List Str)
    (hP : ∀ s ∈ P, 47 ∉ s) (hx : 47 ∉ x) (hF : ∀ s ∈ F, 47 ∉ s) :
    splitSlash (joinBefore P ++ x ++ joinAfter F) = P ++ x :: F := by
  induction P with
  | nil => simp [joinBefore, splitSlash_append_joinAfter x F hx hF]
  | cons q P ih =>
    have hq : 47 ∉ q := hP q (List.mem_cons_self _ _)
    have hP' : ∀ s ∈ P, 47 ∉ s := fun s hs => hP s (List.mem_cons_of_mem _ hs)
    have : joinBefore (q :: P) ++ x ++ joinAfter F
        = q ++ 47 :: (joinBefore P ++ x ++ joinAfter F) := by
      simp [joinBefore, List.append_assoc]
    rw [this, splitSlash_append_slash, splitSlash_of_no_slash q hq, ih hP']
    rfl

/-- A path is its elements before the last, each with its slash, and then the last. -/
theorem split_last (c : Str) :
    ∃ cs cl, splitSlash c = cs ++ [cl] ∧ c = joinBefore cs ++ cl ∧
      (splitSlash c).dropLast = cs ∧ (splitSlash c).getLast?.getD [] = cl := by
  have hne := splitSlash_ne_nil c
  refine ⟨(splitSlash c).dropLast, (splitSlash c).getLast hne, ?_, ?_, rfl, ?_⟩
  · exact (List.dropLast_append_getLast hne).symm
  · have h := joinSlash_splitSlash c
    conv_lhs at h => rw [← List.dropLast_append_getLast hne]
    rw [joinSlash_append_cons] at h
    simpa [joinAfter] using h.symm
  · rw [List.getLast?_eq_getLast _ hne]
    rfl

theorem isRooted_append_dash (c rest : Str) : isRooted (c ++ 45 :: rest) = isRooted c := by
  cases c with
  | nil => simp [isRooted]
  | cons x xs => simp [isRooted]

theorem cleanStep_true_mem (out : List Str) (s y : Str) (hy : y ∈ cleanStep true out s) :
    y ∈ out ∨ (y = s ∧ PlainElem s) := by
  unfold cleanStep at hy
  by_cases h1 : s = []
  · rw [if_pos h1] at hy; exact Or.inl hy
  · rw [if_neg h1] at hy
    by_cases h2 : s = [46]
    · rw [if_pos h2] at hy; exact Or.inl hy
    · rw [if_neg h2] at hy
      by_cases h3 : s = dotdot
      · rw [if_pos h3] at hy
        cases out with
        | nil => simp at hy
        | cons top below =>
          simp only at hy
          by_cases h4 : top = dotdot
          · rw [if_pos h4] at hy
            simp only [if_true] at hy
            exact Or.inl hy
          · rw [if_neg h4] at hy
            exact Or.inl (List.mem_cons_of_mem _ hy)
      · rw [if_neg h3] at hy
        rcases List.mem_cons.mp hy with h | h
        · exact Or.inr ⟨h, h1, h2, h3⟩
        · exact Or.inl h

/-- What cleaning keeps of a list of elements without slashes is made of plain elements
without slashes. -/
theorem foldl_cleanStep_true_plain (dt xs : List Str)
    (hxs : ∀ x ∈ xs, PlainElem x ∧ 47 ∉ x) (hdt : ∀ s ∈ dt, 47 ∉ s) :
    ∀ y ∈ dt.foldl (cleanStep true) xs, PlainElem y ∧ 47 ∉ y := by
  induction dt generalizing xs with
  | nil => exact hxs
  | cons s ss ih =>
    rw [List.foldl_cons]
    apply ih
    · intro y hy
      rcases cleanStep_true_mem xs s y hy with h | ⟨h, hp⟩
      · exact hxs y h
      · rw [h]; exact ⟨hp, hdt s (List.mem_cons_self _ _)⟩
    · exact fun x hx => hdt x (List.mem_cons_of_mem _ hx)

theorem cleanStep_dotdot_cons (rooted : Bool) (top : Str) (below : List Str)
    (h : top ≠ dotdot) : cleanStep rooted (top :: below) dotdot = below := by
  have h1 : dotdot ≠ [] := by decide
  have h2 : dotdot ≠ [46] := by decide
  unfold cleanStep
  rw [if_neg h1, if_neg h2, if_pos rfl]
  simp only
  rw [if_neg h]

theorem keepsDepth_cons (depth : Nat) (s : Str) (ss : List Str) :
    keepsDepth depth (s :: ss) =
      if s = [] ∨ s = [46] then keepsDepth depth ss
      else if s = dotdot then
        match depth with
        | 0 => false
        | d + 1 => keepsDepth d ss
      else keepsDepth (depth + 1) ss := by
  cases depth <;> rfl

theorem keepsDepth_of_plain (d : Nat) (F : List Str) (h : ∀ y ∈ F, PlainElem y) :
    keepsDepth d F = true := by
  induction F generalizing d with
  | nil => rfl
  | cons y ys ih =>
    have hy := h y (List.mem_cons_self _ _)
    have h12 : ¬ (y = [] ∨ y = [46]) := fun h' => h'.elim hy.1 hy.2.1
    rw [keepsDepth_cons, if_neg h12, if_neg hy.2.2]
    exact ih _ (fun z hz => h z (List.mem_cons_of_mem _ hz))

/-- Elements that keep their depth are cleaned on their own: what is below them stays. -/
theorem foldl_cleanStep_keepsDepth (rooted : Bool) (dt xs : List Str) (σ : Str)
    (out0 : List Str) (hxs : ∀ x ∈ xs, x ≠ dotdot)
    (hk : keepsDepth xs.length dt = true) :
    dt.foldl (cleanStep rooted) (xs ++ σ :: out0)
      = dt.foldl (cleanStep true) xs ++ σ :: out0 := by
  induction dt generalizing xs with
  | nil => rfl
  | cons s ss ih =>
    rw [List.foldl_cons, List.foldl_cons]
    by_cases h12 : s = [] ∨ s = [46]
    · rw [keepsDepth_cons, if_pos h12] at hk
      have e1 : ∀ (b : Bool) (out : List Str), cleanStep b out s = out := by
        intro b out
        rcases h12 with h | h
        · simp [cleanStep, h]
        · simp [cleanStep, h]
      rw [e1, e1]
      exact ih xs hxs hk
    · rw [keepsDepth_cons, if_neg h12] at hk
      have hn1 : s ≠ [] := fun h => h12 (Or.inl h)
      have hn2 : s ≠ [46] := fun h => h12 (Or.inr h)
      by_cases h3 : s = dotdot
      · rw [if_pos h3] at hk
        cases xs with
        | nil => simp at hk
        | cons x xs' =>
          have hx : x ≠ dotdot := hxs x (List.mem_cons_self _ _)
          simp only [List.length_cons] at hk
          have e1 : cleanStep rooted ((x :: xs') ++ σ :: out0) s = xs' ++ σ :: out0 := by
            rw [h3, List.cons_append]; exact cleanStep_dotdot_cons rooted x _ hx
          have e2 : cleanStep true (x :: xs') s = xs' := by
            rw [h3]; exact cleanStep_dotdot_cons true x _ hx
          rw [e1, e2]
          exact ih xs' (fun y hy => hxs y (List.mem_cons_of_mem _ hy)) hk
      · rw [if_neg h3] at hk
        have e1 : ∀ (b : Bool) (out : List Str), cleanStep b out s = s :: out := by
          intro b out
          simp only [cleanStep, if_neg hn1, if_neg hn2, if_neg h3]
        rw [e1, e1, ← List.cons_append]
        apply ih (s :: xs)
        · intro y hy
          rcases List.mem_cons.mp hy with h | h
          · rw [h]; exact h3
          · exact hxs y h
        · simpa using hk

/-- Elements that do not keep their depth remove the element below them: what that element
was makes no difference. -/
theorem foldl_cleanStep_cancel (rooted : Bool) (dt xs : List Str) (σ1 σ2 : Str)
    (out0 : List Str) (h1 : σ1 ≠ dotdot) (h2 : σ2 ≠ dotdot) (hxs : ∀ x ∈ xs, x ≠ dotdot)
    (hk : keepsDepth xs.length dt = false) :
    dt.foldl (cleanStep rooted) (xs ++ σ1 :: out0)
      = dt.foldl (cleanStep rooted) (xs ++ σ2 :: out0) := by
  induction dt generalizing xs with
  | nil => simp [keepsDepth] at hk
  | cons s ss ih =>
    rw [List.foldl_cons, List.foldl_cons]
    by_cases h12 : s = [] ∨ s = [46]
    · rw [keepsDepth_cons, if_pos h12] at hk
      have e1 : ∀ (out : List Str), cleanStep rooted out s = out := by
        intro out
        rcases h12 with h | h
        · simp [cleanStep, h]
        · simp [cleanStep, h]
      rw [e1, e1]
      exact ih xs hxs hk
    · rw [keepsDepth_cons, if_neg h12] at hk
      have hn1 : s ≠ [] := fun h => h12 (Or.inl h)
      have hn2 : s ≠ [46] := fun h => h12 (Or.inr h)
      by_cases h3 : s = dotdot
      · rw [if_pos h3] at hk
        cases xs with
        | nil =>
          have e1 : ∀ σ : Str, σ ≠ dotdot → cleanStep rooted ([] ++ σ :: out0) s = out0 := by
            intro σ hσ
            rw [h3, List.nil_append]; exact cleanStep_dotdot_cons rooted σ _ hσ
          rw [e1 σ1 h1, e1 σ2 h2]
        | cons x xs' =>
          have hx : x ≠ dotdot := hxs x (List.mem_cons_self _ _)
          simp only [List.length_cons] at hk
          have e1 : ∀ σ : Str, cleanStep rooted ((x :: xs') ++ σ :: out0) s
              = xs' ++ σ :: out0 := by
            intro σ
            rw [h3, List.cons_append]; exact cleanStep_dotdot_cons rooted x _ hx
          rw [e1, e1]
          exact ih xs' (fun y hy => hxs y (List.mem_cons_of_mem _ hy)) hk
      · rw [if_neg h3] at hk
        have e1 : ∀ (out : List Str), cleanStep rooted out s = s :: out := by
          intro out
          simp only [cleanStep, if_neg hn1, if_neg hn2, if_neg h3]
        rw [e1, e1, ← List.cons_append, ← List.cons_append]
        apply ih (s :: xs)
        · intro y hy
          rcases List.mem_cons.mp hy with h | h
          · rw [h]; exact h3
          · exact hxs y h
        · simpa using hk

/-- The elements of a path that carries a token `-t` inside one element. -/
theorem splitSlash_token (c t dh : Str) (dt : List Str) (ht : 47 ∉ t) (hdh : 47 ∉ dh)
    (hdt : ∀ s ∈ dt, 47 ∉ s) :
    ∃ cs cl, (splitSlash c).dropLast = cs ∧ (splitSlash c).getLast?.getD [] = cl ∧
      splitSlash (c ++ (45 :: t) ++ dh ++ joinAfter dt) = cs ++ (cl ++ (45 :: t) ++ dh) :: dt ∧
      PlainElem (cl ++ (45 :: t) ++ dh) := by
  obtain ⟨cs, cl, hsplit, hc, hdrop, hlast⟩ := split_last c
  have hcs : ∀ s ∈ cs, 47 ∉ s := fun s hs =>
    mem_splitSlash_no_slash c s (by rw [hsplit]; exact List.mem_append_left _ hs)
  have hcl : 47 ∉ cl :=
    mem_splitSlash_no_slash c cl (by rw [hsplit]; simp)
  have hσ : 47 ∉ cl ++ (45 :: t) ++ dh := by
    intro hm
    simp only [List.mem_append, List.mem_cons] at hm
    rcases hm with (h | h | h) | h
    · exact hcl h
    · exact absurd h (by decide)
    · exact ht h
    · exact hdh h
  have hplain : PlainElem (cl ++ (45 :: t) ++ dh) := by
    have hmem : 45 ∈ cl ++ (45 :: t) ++ dh := by simp
    refine ⟨?_, ?_, ?_⟩
    · intro h; rw [h] at hmem; cases hmem
    · intro h; rw [h] at hmem; revert hmem; decide
    · intro h; rw [h] at hmem; revert hmem; decide
  have hstr : c ++ (45 :: t) ++ dh ++ joinAfter dt
      = joinBefore cs ++ (cl ++ (45 :: t) ++ dh) ++ joinAfter dt := by
    conv_lhs => rw [hc]
    simp [List.append_assoc]
  refine ⟨cs, cl, hdrop, hlast, ?_, hplain⟩
  rw [hstr]
  exact splitSlash_joinBefore_append cs _ dt hcs hσ hdt

theorem isRooted_token (c t dh : Str) (dt : List Str) :
    isRooted (c ++ (45 :: t) ++ dh ++ joinAfter dt) = isRooted c := by
  rw [List.append_assoc, List.append_assoc, List.cons_append]
  exact isRooted_append_dash c _

/-- Cleaning a path that carries a token `-t` inside one element which no later `..`
cancels: the token stays where it is, between a beginning and an end that do not depend on
the token. -/
theorem Clean_token (c t dh : Str) (dt : List Str) (ht : 47 ∉ t) (hdh : 47 ∉ dh)
    (hdt : ∀ s ∈ dt, 47 ∉ s) (hk : keepsDepth 0 dt = true) :
    Clean (c ++ (45 :: t) ++ dh ++ joinAfter dt)
      = cleanPrefix c ++ (45 :: t) ++ dh ++ joinAfter (cleanSegs true dt).reverse := by
  obtain ⟨cs, cl, hdrop, hlast, hsp, hplain⟩ := splitSlash_token c t dh dt ht hdh hdt
  have hkept : (cleanSegs (isRooted c) (cs ++ (cl ++ (45 :: t) ++ dh) :: dt)).reverse
      = (cleanSegs (isRooted c) cs).reverse ++ (cl ++ (45 :: t) ++ dh)
          :: (cleanSegs true dt).reverse := by
    simp only [cleanSegs, List.foldl_append, List.foldl_cons]
    rw [cleanStep_plain _ _ _ hplain]
    have := foldl_cleanStep_keepsDepth (isRooted c) dt [] (cl ++ (45 :: t) ++ dh)
      (List.foldl (cleanStep (isRooted c)) [] cs) (fun x hx => by cases hx) hk
    simp only [List.nil_append] at this
    rw [this]
    simp
  have hne : (cleanSegs (isRooted c) cs).reverse ++ (cl ++ (45 :: t) ++ dh)
      :: (cleanSegs true dt).reverse ≠ [] := by simp
  unfold Clean
  simp only [isRooted_token, hsp, hkept, hne, if_false]
  rw [joinSlash_append_cons]
  unfold cleanPrefix
  rw [hdrop, hlast]
  by_cases hr : isRooted c = true
  · simp [hr, List.append_assoc]
  · simp [hr, List.append_assoc]

/-- Cleaning a path that carries a token inside an element which a later `..` cancels: the
token makes no difference. -/
theorem Clean_token_cancel (c t1 t2 dh : Str) (dt : List Str) (ht1 : 47 ∉ t1)
    (ht2 : 47 ∉ t2) (hdh : 47 ∉ dh) (hdt : ∀ s ∈ dt, 47 ∉ s)
    (hk : keepsDepth 0 dt = false) :
    Clean (c ++ (45 :: t1) ++ dh ++ joinAfter dt)
      = Clean (c ++ (45 :: t2) ++ dh ++ joinAfter dt) := by
  obtain ⟨cs, cl, hd, hl, hsp1, hplain1⟩ := splitSlash_token c t1 dh dt ht1 hdh hdt
  obtain ⟨cs', cl', hd', hl', hsp2, hplain2⟩ := splitSlash_token c t2 dh dt ht2 hdh hdt
  have hcs : cs = cs' := hd.symm.trans hd'
  have hcl : cl = cl' := hl.symm.trans hl'
  subst hcs hcl
  have hsegs : cleanSegs (isRooted c) (cs ++ (cl ++ (45 :: t1) ++ dh) :: dt)
      = cleanSegs (isRooted c) (cs ++ (cl ++ (45 :: t2) ++ dh) :: dt) := by
    simp only [cleanSegs, List.foldl_append, List.foldl_cons]
    rw [cleanStep_plain _ _ _ hplain1, cleanStep_plain _ _ _ hplain2]
    have := foldl_cleanStep_cancel (isRooted c) dt [] (cl ++ (45 :: t1) ++ dh)
      (cl ++ (45 :: t2) ++ dh) (List.foldl (cleanStep (isRooted c)) [] cs)
      hplain1.2.2 hplain2.2.2 (fun x hx => by cases hx) hk
    simpa only [List.nil_append] using this
  unfold Clean
  simp only [isRooted_token, hsp1, hsp2, hsegs]

/-! ## Valid UTF-8 and the JSON coercion -/

theorem coerceScan_of_valid (k : Nat) (s : Str) (h : validScan k s = true) :
    coerceScan k s = s := by
  induction s generalizing k with
  | nil => cases k <;> rfl
  | cons b bs ih =>
    cases k with
    | succ k =>
      simp only [validScan] at h
      simp only [coerceScan, ih k h]
    | zero =>
      simp only [validScan] at h
      simp only [coerceScan]
      cases hr : runeLen (b :: bs) with
      | none => rw [hr] at h; cases h
      | some n =>
        rw [hr] at h
        simp only at h ⊢
        rw [ih (n - 1) h]

/-- The coercion lengthens a string by two bytes for every byte it replaces, and it replaces
one when the string is not valid. -/
theorem coerceScan_length (k : Nat) (s : Str) :
    ∃ m, (coerceScan k s).length = s.length + 2 * m ∧ (validScan k s = false → 0 < m) := by
  induction s generalizing k with
  | nil => exact ⟨0, by cases k <;> rfl, by cases k <;> simp [validScan]⟩
  | cons b bs ih =>
    cases k with
    | succ k =>
      obtain ⟨m, h1, h2⟩ := ih k
      refine ⟨m, ?_, ?_⟩
      · simp only [coerceScan, List.length_cons, h1]; omega
      · simpa only [validScan] using h2
    | zero =>
      cases hr : runeLen (b :: bs) with
      | none =>
        obtain ⟨m, h1, _⟩ := ih 0
        refine ⟨m + 1, ?_, fun _ => Nat.succ_pos m⟩
        simp only [coerceScan, hr, replacementChar, List.length_append, List.length_cons,
          List.length_nil, h1]
        omega
      | some n =>
        obtain ⟨m, h1, h2⟩ := ih (n - 1)
        refine ⟨m, ?_, ?_⟩
        · simp only [coerceScan, hr, List.length_cons, h1]; omega
        · simpa only [validScan, hr] using h2

theorem toValidUTF8_of_valid (s : Str) (h : utf8Valid s = true) : toValidUTF8 s = s :=
  coerceScan_of_valid 0 s h

/-- A string comes back unchanged from its JSON encoding exactly when it is valid UTF-8. -/
theorem toValidUTF8_eq_self_iff (s : Str) : toValidUTF8 s = s ↔ utf8Valid s = true := by
  constructor
  · intro h
    cases hv : utf8Valid s with
    | true => rfl
    | false =>
      obtain ⟨m, h1, h2⟩ := coerceScan_length 0 s
      have hm := h2 hv
      have hl := congrArg List.length h
      unfold toValidUTF8 at hl
      omega
  · exact toValidUTF8_of_valid s

theorem toValidUTF8_length (s : Str) :
    ∃ m, (toValidUTF8 s).length = s.length + 2 * m := by
  obtain ⟨m, h1, _⟩ := coerceScan_length 0 s
  exact ⟨m, h1⟩

theorem StoredAs_toValidUTF8 (s : Str) : StoredAs (toValidUTF8 s) s :=
  ⟨rfl, toValidUTF8_eq_self_iff s⟩

/-! ## Substrings -/

theorem Index_some (s old : Str) (j : Nat) (h : Index s old = some j) :
    old <+: s.drop j ∧ j ≤ s.length ∧ ∀ k < j, ¬ old <+: s.drop k := by
  induction s generalizing j with
  | nil =>
    by_cases ho : old = []
    · simp only [Index, if_pos ho, Option.some.injEq] at h
      subst h
      subst ho
      exact ⟨List.nil_prefix, Nat.le_refl _, fun k hk => absurd hk (Nat.not_lt_zero k)⟩
    · simp [Index, ho] at h
  | cons c cs ih =>
    by_cases hp : old.isPrefixOf (c :: cs) = true
    · simp only [Index, if_pos hp, Option.some.injEq] at h
      subst h
      exact ⟨List.isPrefixOf_iff_prefix.mp hp, Nat.zero_le _,
        fun k hk => absurd hk (Nat.not_lt_zero k)⟩
    · simp only [Index, if_neg hp] at h
      cases hi : Index cs old with
      | none => rw [hi] at h; cases h
      | some j' =>
        rw [hi] at h
        simp only [Option.map_some', Option.some.injEq] at h
        subst h
        obtain ⟨h1, h2, h3⟩ := ih j' hi
        refine ⟨h1, Nat.succ_le_succ h2, ?_⟩
        intro k hk
        cases k with
        | zero => exact fun hpre => hp (List.isPrefixOf_iff_prefix.mpr hpre)
        | succ k' => exact h3 k' (Nat.lt_of_succ_lt_succ hk)

theorem Index_none (s old : Str) (h : Index s old = none) (k : Nat) :
    ¬ old <+: s.drop k := by
  induction s generalizing k with
  | nil =>
    by_cases ho : old = []
    · simp [Index, ho] at h
    · intro hpre
      rw [List.drop_nil] at hpre
      exact ho (List.prefix_nil.mp hpre)
  | cons c cs ih =>
    by_cases hp : old.isPrefixOf (c :: cs) = true
    · simp [Index, hp] at h
    · simp only [Index, if_neg hp, Option.map_eq_none'] at h
      cases k with
      | zero => exact fun hpre => hp (List.isPrefixOf_iff_prefix.mpr hpre)
      | succ k' => exact ih h k'

theorem Ext_suffix (p : Str) : Ext p <:+ p := by
  have key : ∀ (rs acc : Str), extScan rs acc <:+ rs.reverse ++ acc := by
    intro rs
    induction rs with
    | nil => intro acc; exact List.nil_suffix
    | cons c cs ih =>
      intro acc
      by_cases h1 : c = 47
      · simp only [extScan, if_pos h1]; exact List.nil_suffix
      · by_cases h2 : c = 46
        · simp only [extScan, if_neg h1, if_pos h2, List.reverse_cons, List.append_assoc,
            List.singleton_append]
          rw [h2]
          exact List.suffix_append _ _
        · simp only [extScan, if_neg h1, if_neg h2, List.reverse_cons, List.append_assoc,
            List.singleton_append]
          exact ih (c :: acc)
  have := key p.reverse []
  simpa [Ext] using this

theorem fromFinalDot_of_no_dot (s : Str) (h : 46 ∉ s) : fromFinalDot s = [] := by
  induction s with
  | nil => rfl
  | cons c cs ih =>
    have hc : c ≠ 46 := fun hc => h (by rw [hc]; exact List.mem_cons_self _ _)
    have hcs : 46 ∉ cs := fun hm => h (List.mem_cons_of_mem _ hm)
    have hcont : ¬ cs.contains 46 = true := by
      simpa using hcs
    rw [fromFinalDot, if_neg hcont, if_neg hc]

theorem fromFinalDot_append_dot (x acc : Str) (h : 46 ∉ acc) :
    fromFinalDot (x ++ 46 :: acc) = 46 :: acc := by
  have hacc : ¬ acc.contains 46 = true := by simpa using h
  induction x with
  | nil =>
    rw [List.nil_append, fromFinalDot, if_neg hacc, if_pos rfl]
  | cons c cs _ =>
    have hcont : (cs ++ 46 :: acc).contains 46 = true := by simp
    rw [List.cons_append, fromFinalDot, if_pos hcont]
    assumption

theorem extScan_eq_fromFinalDot (u acc : Str) (hu : 47 ∉ u) (hacc : 46 ∉ acc) :
    extScan u acc = fromFinalDot (u.reverse ++ acc) := by
  induction u generalizing acc with
  | nil => simp [extScan, fromFinalDot_of_no_dot acc hacc]
  | cons c cs ih =>
    have hc : c ≠ 47 := fun hc => hu (by rw [hc]; exact List.mem_cons_self _ _)
    have hcs : 47 ∉ cs := fun hm => hu (List.mem_cons_of_mem _ hm)
    by_cases hd : c = 46
    · simp only [extScan, if_neg hc, if_pos hd, List.reverse_cons, List.append_assoc,
        List.singleton_append]
      rw [hd, fromFinalDot_append_dot _ _ hacc]
    · simp only [extScan, if_neg hc, if_neg hd, List.reverse_cons, List.append_assoc,
        List.singleton_append]
      apply ih (c :: acc) hcs
      intro hm
      rcases List.mem_cons.mp hm with h | h
      · exact hd h.symm
      · exact hacc h

theorem extScan_append_stop (u rest acc : Str) (hu : 47 ∉ u)
    (hrest : rest = [] ∨ ∃ t, rest = 47 :: t) :
    extScan (u ++ rest) acc = extScan u acc := by
  induction u generalizing acc with
  | nil =>
    rcases hrest with h | ⟨t, h⟩
    · rw [h]; rfl
    · rw [h]; simp [extScan]
  | cons c cs ih =>
    have hc : c ≠ 47 := fun hc => hu (by rw [hc]; exact List.mem_cons_self _ _)
    have hcs : 47 ∉ cs := fun hm => hu (List.mem_cons_of_mem _ hm)
    by_cases hd : c = 46
    · simp only [List.cons_append, extScan, if_neg hc, if_pos hd]
    · simp only [List.cons_append, extScan, if_neg hc, if_neg hd]
      exact ih _ hcs

theorem joinBefore_reverse (cs : List Str) :
    (joinBefore cs).reverse = [] ∨ ∃ t, (joinBefore cs).reverse = 47 :: t := by
  induction cs with
  | nil => left; rfl
  | cons c cs ih =>
    right
    rcases ih with h | ⟨t, h⟩
    · refine ⟨c.reverse, ?_⟩
      have hnil : joinBefore cs = [] := by simpa using h
      simp [joinBefore, hnil]
    · refine ⟨t ++ 47 :: c.reverse, ?_⟩
      simp [joinBefore, h]

/-- The scan of `path.Ext` computes the extension as the specification words it. -/
theorem Ext_eq_specExt (p : Str) : Ext p = specExt p := by
  obtain ⟨cs, cl, hsplit, hp, _, hlast⟩ := split_last p
  have hcl : 47 ∉ cl := mem_splitSlash_no_slash p cl (by rw [hsplit]; simp)
  have hclr : 47 ∉ cl.reverse := by simpa using hcl
  unfold specExt
  rw [hlast]
  unfold Ext
  conv_lhs => rw [hp]
  rw [List.reverse_append, extScan_append_stop _ _ _ hclr (joinBefore_reverse cs),
    extScan_eq_fromFinalDot _ _ hclr (List.not_mem_nil _)]
  simp

/-- The first occurrence of `old` in a string that has one: the split of the string around
it, and what `ReplaceFirst` returns. -/
theorem ReplaceFirst_spec (s old : Str) (hocc : ∃ k, old <+: s.drop k) :
    ∃ pre post, s = pre ++ old ++ post ∧ (∀ k < pre.length, ¬ old <+: s.drop k) ∧
      ∀ new, ReplaceFirst s old new = pre ++ new ++ post := by
  cases hi : Index s old with
  | none =>
    obtain ⟨k, hk⟩ := hocc
    exact absurd hk (Index_none s old hi k)
  | some j =>
    obtain ⟨h1, h2, h3⟩ := Index_some s old j hi
    obtain ⟨post, hpost⟩ := h1
    have hs : s = s.take j ++ old ++ post := by
      rw [List.append_assoc, hpost, List.take_append_drop]
    have hlen : (s.take j).length = j := List.length_take_of_le h2
    refine ⟨s.take j, post, hs, ?_, ?_⟩
    · rw [hlen]; exact h3
    · intro new
      by_cases hon : old = new
      · simp only [ReplaceFirst, if_pos hon]
        rw [← hon]; exact hs
      · simp only [ReplaceFirst, if_neg hon, hi]
        congr 1
        have : s.drop (j + old.length) = (s.drop j).drop old.length := by
          rw [List.drop_drop, Nat.add_comm]
        rw [this, ← hpost, List.drop_left]

theorem generateRandomString_length (r : Rand) (n : Nat) :
    (generateRandomString r n).length = n := by
  simp [generateRandomString]

theorem generateRandomString_mem (r : Rand) (n : Nat) (c : Nat)
    (h : c ∈ generateRandomString r n) : c ∈ charset := by
  simp only [generateRandomString, List.mem_map] at h
  obtain ⟨i, _, hi⟩ := h
  have hlt : r i % charset.length < charset.length :=
    Nat.mod_lt _ (by decide)
  rw [List.getD_eq_getElem _ _ hlt] at hi
  rw [← hi]
  exact List.getElem_mem hlt

theorem AddRandomSuffix_spec (p : Str) :
    ∃ pre post, p = pre ++ post ∧ Ext p <+: post ∧
      (∀ k < pre.length, ¬ Ext p <+: p.drop k) ∧
      ∀ r, AddRandomSuffix r p = pre ++ (45 :: generateRandomString r 30) ++ post := by
  have hocc : ∃ k, Ext p <+: p.drop k := by
    obtain ⟨t, ht⟩ := Ext_suffix p
    refine ⟨t.length, ?_⟩
    have hd : p.drop t.length = Ext p := by
      conv_lhs => rw [← ht]
      exact List.drop_left _ _
    rw [hd]
  obtain ⟨pre, post, hs, hfirst, hrep⟩ := ReplaceFirst_spec p (Ext p) hocc
  refine ⟨pre, Ext p ++ post, ?_, List.prefix_append _ _, hfirst, ?_⟩
  · rw [← List.append_assoc]; exact hs
  · intro r
    simp only [AddRandomSuffix]
    rw [hrep]
    simp [List.append_assoc]

theorem generateRandomString_no_slash (r : Rand) (n : Nat) :
    47 ∉ generateRandomString r n := by
  intro h
  have := generateRandomString_mem r n 47 h
  revert this
  decide

theorem Index_Ext_some (P : Str) : ∃ j, Index P (Ext P) = some j := by
  cases hi : Index P (Ext P) with
  | some j => exact ⟨j, rfl⟩
  | none =>
    exfalso
    obtain ⟨t, ht⟩ := Ext_suffix P
    apply Index_none P (Ext P) hi t.length
    have hd : P.drop t.length = Ext P := by
      conv_lhs => rw [← ht]
      exact List.drop_left _ _
    rw [hd]

/-- The suffix goes in at `suffixPosition`: what is before that place and what is from
that place on stay as they are. -/
theorem AddRandomSuffix_at_position (r : Rand) (P : Str) :
    AddRandomSuffix r P
      = P.take (suffixPosition P) ++ (45 :: generateRandomString r 30)
          ++ P.drop (suffixPosition P) := by
  obtain ⟨j, hj⟩ := Index_Ext_some P
  obtain ⟨⟨post, hpost⟩, _, _⟩ := Index_some P (Ext P) j hj
  have hpos : suffixPosition P = j := by simp [suffixPosition, hj]
  have hne : Ext P ≠ 45 :: generateRandomString r 30 ++ Ext P := by
    intro h
    have hl := congrArg List.length h
    simp only [List.length_cons, List.length_append] at hl
    omega
  have hdrop : P.drop (j + (Ext P).length) = post := by
    have : P.drop (j + (Ext P).length) = (P.drop j).drop (Ext P).length := by
      rw [List.drop_drop, Nat.add_comm]
    rw [this, ← hpost, List.drop_left]
  simp only [AddRandomSuffix, ReplaceFirst, if_neg hne, hj, hpos]
  rw [hdrop, ← hpost]
  simp [List.append_assoc]

/-- The suffixed pathname: a beginning, the token, and an end made of the rest of the
element that receives the suffix and of the elements after it; beginning and end are those of
the pathname, whatever the token. -/
theorem AddRandomSuffix_shape (P : Str) :
    ∃ pre dh, 47 ∉ dh ∧ (∀ s ∈ elementsAfterSuffix P, 47 ∉ s) ∧
      ∀ r, AddRandomSuffix r P
        = pre ++ (45 :: generateRandomString r 30) ++ dh
            ++ joinAfter (elementsAfterSuffix P) := by
  have hne := splitSlash_ne_nil (P.drop (suffixPosition P))
  obtain ⟨dh, dt, hsp⟩ := List.exists_cons_of_ne_nil hne
  have hdt : elementsAfterSuffix P = dt := by
    simp [elementsAfterSuffix, hsp]
  have hpost : P.drop (suffixPosition P) = dh ++ joinAfter dt := by
    have := joinSlash_splitSlash (P.drop (suffixPosition P))
    rw [hsp, joinSlash_cons_eq_joinAfter] at this
    exact this.symm
  refine ⟨P.take (suffixPosition P), dh, ?_, ?_, ?_⟩
  · exact mem_splitSlash_no_slash _ dh (by rw [hsp]; exact List.mem_cons_self _ _)
  · intro s hs
    rw [hdt] at hs
    exact mem_splitSlash_no_slash _ s (by rw [hsp]; exact List.mem_cons_of_mem _ hs)
  · intro r
    rw [AddRandomSuffix_at_position, hpost, hdt]
    simp [List.append_assoc]

/-- The condition on examples: in `a/../b.txt`, `../x.png` and `a.txt/b/..` nothing cancels
the element that receives the suffix; in `a/../b` and `a.txt/..` the `..` after it does. -/
theorem SuffixSurvives_examples :
    SuffixSurvives "images/cat.png".toStr ∧ SuffixSurvives "a/../b.txt".toStr ∧
    SuffixSurvives "../x.png".toStr ∧ SuffixSurvives "a.txt/b/..".toStr ∧
    ¬ SuffixSurvives "a/../b".toStr ∧ ¬ SuffixSurvives "a.txt/..".toStr := by
  decide

theorem token_cancel (X Y t1 t2 : Str)
    (h : X ++ (45 :: t1) ++ Y = X ++ (45 :: t2) ++ Y) : t1 = t2 := by
  have h1 := List.append_cancel_right h
  have h2 := List.append_cancel_left h1
  exact (List.cons.inj h2).2

theorem Join_two_eq (a x : Str) (hx : x ≠ []) : Join [a, x] = Clean (joinTwo a x) := by
  by_cases ha : a = []
  · rw [ha, Join_nil_cons, Join_cons_of_ne_nil _ _ hx]
    simp [joinSlash, joinTwo]
  · rw [Join_cons_of_ne_nil _ _ ha]
    simp [joinSlash, joinTwo, ha]

theorem joinTwo_token (a c t dh : Str) (dt : List Str) :
    joinTwo a (c ++ (45 :: t) ++ dh ++ joinAfter dt)
      = joinTwo a c ++ (45 :: t) ++ dh ++ joinAfter dt := by
  unfold joinTwo
  by_cases ha : a = []
  · simp [ha]
  · simp [ha, List.append_assoc]

/-- `path.Join` of two elements, the second carrying a token that survives. -/
theorem Join_two_token (a c t dh : Str) (dt : List Str) (ht : 47 ∉ t) (hdh : 47 ∉ dh)
    (hdt : ∀ s ∈ dt, 47 ∉ s) (hk : keepsDepth 0 dt = true) :
    Join [a, c ++ (45 :: t) ++ dh ++ joinAfter dt]
      = cleanPrefix (joinTwo a c) ++ (45 :: t) ++ dh
          ++ joinAfter (cleanSegs true dt).reverse := by
  have hne : c ++ (45 :: t) ++ dh ++ joinAfter dt ≠ [] := by simp
  rw [Join_two_eq _ _ hne, joinTwo_token]
  exact Clean_token _ t dh dt ht hdh hdt hk

/-- `path.Join` of two elements, the second carrying a token that is cancelled. -/
theorem Join_two_token_cancel (a c t1 t2 dh : Str) (dt : List Str) (ht1 : 47 ∉ t1)
    (ht2 : 47 ∉ t2) (hdh : 47 ∉ dh) (hdt : ∀ s ∈ dt, 47 ∉ s)
    (hk : keepsDepth 0 dt = false) :
    Join [a, c ++ (45 :: t1) ++ dh ++ joinAfter dt]
      = Join [a, c ++ (45 :: t2) ++ dh ++ joinAfter dt] := by
  have hne1 : c ++ (45 :: t1) ++ dh ++ joinAfter dt ≠ [] := by simp
  have hne2 : c ++ (45 :: t2) ++ dh ++ joinAfter dt ≠ [] := by simp
  rw [Join_two_eq _ _ hne1, Join_two_eq _ _ hne2, joinTwo_token, joinTwo_token]
  exact Clean_token_cancel _ t1 t2 dh dt ht1 ht2 hdh hdt hk

theorem joinSlash_public_token (S c t dh : Str) (dt : List Str) :
    joinSlash [PublicBasePath, S, c ++ (45 :: t) ++ dh ++ joinAfter dt]
      = (PublicBasePath ++ 47 :: (S ++ 47 :: c)) ++ (45 :: t) ++ dh ++ joinAfter dt := by
  simp [joinSlash, List.append_assoc]

/-- `CreatePublicUrl` of a pathname carrying a token that survives. -/
theorem CreatePublicUrl_token (S c t dh : Str) (dt : List Str) (ht : 47 ∉ t)
    (hdh : 47 ∉ dh) (hdt : ∀ s ∈ dt, 47 ∉ s) (hk : keepsDepth 0 dt = true) :
    CreatePublicUrl S (c ++ (45 :: t) ++ dh ++ joinAfter dt)
      = (BaseUrl ++ cleanPrefix (PublicBasePath ++ 47 :: (S ++ 47 :: c))) ++ (45 :: t)
          ++ (dh ++ joinAfter (cleanSegs true dt).reverse) := by
  have hne : PublicBasePath ≠ [] := by decide
  rw [CreatePublicUrl, Join_cons_of_ne_nil _ _ hne, joinSlash_public_token,
    Clean_token _ t dh dt ht hdh hdt hk]
  simp [List.append_assoc]

/-- `CreatePublicUrl` of a pathname carrying a token that is cancelled. -/
theorem CreatePublicUrl_token_cancel (S c t1 t2 dh : Str) (dt : List Str) (ht1 : 47 ∉ t1)
    (ht2 : 47 ∉ t2) (hdh : 47 ∉ dh) (hdt : ∀ s ∈ dt, 47 ∉ s)
    (hk : keepsDepth 0 dt = false) :
    CreatePublicUrl S (c ++ (45 :: t1) ++ dh ++ joinAfter dt)
      = CreatePublicUrl S (c ++ (45 :: t2) ++ dh ++ joinAfter dt) := by
  have hne : PublicBasePath ≠ [] := by decide
  rw [CreatePublicUrl, CreatePublicUrl, Join_cons_of_ne_nil _ _ hne,
    Join_cons_of_ne_nil _ _ hne, joinSlash_public_token, joinSlash_public_token,
    Clean_token_cancel _ t1 t2 dh dt ht1 ht2 hdh hdt hk]

/-! ## Files -/

theorem MkdirAll_files (fs fs' : FileSystem) (d : Str) (h : MkdirAll fs d = some fs') :
    fs'.files = fs.files := by
  unfold MkdirAll at h
  by_cases h1 : fs.isDir d = true
  · simp only [h1, if_true, Option.some.injEq] at h
    rw [← h]
  · rw [if_neg h1] at h
    by_cases h2 : ((dirChain d).any fun a => fs.isFile a) = true
    · simp [h2] at h
    · rw [if_neg h2] at h
      cases h
      rfl

theorem Create_files (fs fs' : FileSystem) (name : Str) (h : Create fs name = some fs') :
    fs'.files = setKey name [] fs.files := by
  unfold Create at h
  by_cases h1 : fs.isDir name = true
  · simp [h1] at h
  · rw [if_neg h1] at h
    by_cases h2 : (!fs.isDir (Dir name)) = true
    · simp [h2] at h
    · rw [if_neg h2] at h
      cases h
      rfl

/-- The files after a successful `FileProvider.Put`: the written one holds what was read,
every other one is as before. -/
theorem FileProvider_Put_lookup (p : FileProvider) (store pathname : Str) (data : Reader)
    (fs fs' : FileSystem) (size : Int) (rel : Str)
    (h : p.Put store pathname data fs = (Res.ok (size, rel), fs')) :
    ∃ fs2 b, readAll fs2 data = some b ∧
      lookupKey (Join [p.dir, rel]) fs'.files = some b ∧
      ∀ k, k ≠ Join [p.dir, rel] → lookupKey k fs'.files = lookupKey k fs.files := by
  obtain ⟨_, fs1, fs2, b, hm, hc, hread, _, hfs'⟩ := FileProvider_Put_ok p store pathname data fs fs' size rel h
  refine ⟨fs2, b, hread, ?_, ?_⟩
  · rw [hfs']
    exact lookupKey_setKey_self _ _ _
  · intro k hk
    rw [hfs']
    simp only
    rw [lookupKey_setKey_ne k _ b _ hk, Create_files fs1 fs2 _ hc,
      lookupKey_setKey_ne k _ [] _ hk, MkdirAll_files fs fs1 _ hm]

/-! ## The order of the index -/

theorem strLt_cons (a b : Nat) (as bs : Str) :
    strLt (a :: as) (b :: bs) = true ↔ a < b ∨ (a = b ∧ strLt as bs = true) := by
  simp [strLt]

theorem strLt_irrefl (a : Str) : strLt a a = false := by
  induction a with
  | nil => rfl
  | cons c cs ih =>
    cases h : strLt (c :: cs) (c :: cs) with
    | false => rfl
    | true =>
      rcases (strLt_cons c c cs cs).mp h with h1 | ⟨_, h1⟩
      · exact absurd h1 (Nat.lt_irrefl _)
      · rw [ih] at h1; cases h1

theorem strLt_trans (a b c : Str) (h1 : strLt a b = true) (h2 : strLt b c = true) :
    strLt a c = true := by
  induction a generalizing b c with
  | nil =>
    cases c with
    | nil => cases b <;> simp [strLt] at h2
    | cons z zs => rfl
  | cons x xs ih =>
    cases b with
    | nil => simp [strLt] at h1
    | cons y ys =>
      cases c with
      | nil => simp [strLt] at h2
      | cons z zs =>
        rw [strLt_cons] at h1 h2 ⊢
        rcases h1 with h1 | ⟨h1, h1'⟩
        · rcases h2 with h2 | ⟨h2, _⟩
          · exact Or.inl (Nat.lt_trans h1 h2)
          · exact Or.inl (h2 ▸ h1)
        · rcases h2 with h2 | ⟨h2, h2'⟩
          · exact Or.inl (h1 ▸ h2)
          · exact Or.inr ⟨h1.trans h2, ih ys zs h1' h2'⟩

theorem strLt_total (a b : Str) (hne : a ≠ b) (h : strLt a b = false) : strLt b a = true := by
  induction a generalizing b with
  | nil =>
    cases b with
    | nil => exact absurd rfl hne
    | cons y ys => simp [strLt] at h
  | cons x xs ih =>
    cases b with
    | nil => rfl
    | cons y ys =>
      rw [strLt_cons]
      have hnot : ¬ (x < y ∨ (x = y ∧ strLt xs ys = true)) := by
        rw [← strLt_cons, h]; exact Bool.false_ne_true
      rw [not_or] at hnot
      rcases Nat.lt_trichotomy x y with h1 | h1 | h1
      · exact absurd h1 hnot.1
      · have hxy : x = y := h1
        right
        refine ⟨hxy.symm, ?_⟩
        apply ih
        · intro hxs
          exact hne (by rw [hxy, hxs])
        · cases hs : strLt xs ys with
          | false => rfl
          | true => exact absurd ⟨hxy, hs⟩ hnot.2
      · exact Or.inl h1

theorem SortedKeys_dbSet (k : Str) (v : JsonObject) (db : Db) (h : SortedKeys db) :
    SortedKeys (dbSet k v db) := by
  induction db with
  | nil => simp [dbSet, SortedKeys]
  | cons e rest ih =>
    obtain ⟨k', v'⟩ := e
    unfold SortedKeys at h ih ⊢
    rw [List.pairwise_cons] at h
    by_cases hk : k = k'
    · simp only [dbSet, if_pos hk]
      rw [List.pairwise_cons]
      exact ⟨fun a ha => by rw [hk]; exact h.1 a ha, h.2⟩
    · by_cases hl : strLt k k' = true
      · simp only [dbSet, if_neg hk, if_pos hl]
        rw [List.pairwise_cons, List.pairwise_cons]
        refine ⟨?_, h⟩
        intro a ha
        rcases List.mem_cons.mp ha with h1 | h1
        · rw [h1]; exact hl
        · exact strLt_trans _ _ _ hl (h.1 a h1)
      · simp only [dbSet, if_neg hk, if_neg hl]
        rw [List.pairwise_cons]
        refine ⟨?_, ih h.2⟩
        intro a ha
        rcases mem_dbSet k v rest a ha with h1 | h1
        · rw [h1]
          exact strLt_total k k' hk (by simpa using hl)
        · exact h.1 a h1

theorem SortedKeys_unique (db : Db) (h : SortedKeys db) (e1 e2 : Str × JsonObject)
    (h1 : e1 ∈ db) (h2 : e2 ∈ db) (hk : e1.1 = e2.1) : e1 = e2 := by
  induction db with
  | nil => cases h1
  | cons e rest ih =>
    unfold SortedKeys at h ih
    rw [List.pairwise_cons] at h
    rcases List.mem_cons.mp h1 with h1 | h1
    · rcases List.mem_cons.mp h2 with h2 | h2
      · rw [h1, h2]
      · have := h.1 e2 h2
        rw [← h1, hk, strLt_irrefl] at this
        cases this
    · rcases List.mem_cons.mp h2 with h2 | h2
      · have := h.1 e1 h1
        rw [← h2, ← hk, strLt_irrefl] at this
        cases this
      · exact ih h.2 h1 h2

theorem eraseKey_sublist {α : Type} (k : Str) (l : List (Str × α)) :
    (eraseKey k l).Sublist l := by
  induction l with
  | nil => exact List.Sublist.slnil
  | cons e rest ih =>
    obtain ⟨k', v⟩ := e
    by_cases hk : k' = k
    · rw [eraseKey, if_pos hk]; exact List.Sublist.cons _ ih
    · rw [eraseKey, if_neg hk]; exact List.Sublist.cons₂ _ ih

theorem SortedKeys_Put (p : ObjectProvider) (store : Str) (options : PutOptions)
    (r : Rand) (now : Str) (w : World) (h : SortedKeys w.db) :
    SortedKeys (p.Put store options r now w).2.db := by
  rcases Put_db p store options r now w with h1 | ⟨o, _, _, h1⟩
  · rw [h1]; exact h
  · rw [h1]; exact SortedKeys_dbSet _ _ _ h

theorem SortedKeys_Del (p : ObjectProvider) (urls : List Str) (w : World)
    (h : SortedKeys w.db) : SortedKeys (p.Del urls w).db := by
  unfold ObjectProvider.Del
  induction urls generalizing w with
  | nil => exact h
  | cons u rest ih =>
    rw [List.foldl_cons]
    apply ih
    rw [delOne_db]
    exact List.Pairwise.sublist (eraseKey_sublist u w.db) h

theorem Reachable_SortedKeys (p : ObjectProvider) (w : World) (h : Reachable p w) :
    SortedKeys w.db := by
  induction h with
  | init => exact List.Pairwise.nil
  | put w store options r now _ ih => exact SortedKeys_Put p store options r now w ih
  | copy w store fromUrl options r now _ ih =>
    rcases Copy_eq p store fromUrl options r now w with h1 | ⟨_, _, _, _, h1⟩
    · rw [h1]; exact ih
    · rw [h1]; exact SortedKeys_Put p store _ r now w ih
  | del w urls _ ih => exact SortedKeys_Del p urls w ih

theorem AddRandomSuffix_ne (r : Rand) (p : Str) : p ≠ AddRandomSuffix r p := by
  obtain ⟨pre, post, h1, _, _, h4⟩ := AddRandomSuffix_spec p
  intro h
  have hl := congrArg List.length h
  rw [h4 r] at hl
  conv_lhs at hl => rw [h1]
  simp only [List.length_append, List.length_cons] at hl
  omega

/-! ## Listing and copying -/

/-- Every object of a listing is a record of the index whose key begins with the prefix
the listing scans; its `Url` is that key coerced to valid UTF-8. -/
theorem List_url_prefix (p : ObjectProvider) (w : World) (S : Str) (l : List Object)
    (hw : Reachable p w) (hl : p.List S w = Res.ok l) :
    ∀ o ∈ l, ∃ e ∈ w.db, o = parseObject e.2 ∧ CreatePublicUrl S [] <+: e.1 ∧
      o.Url = toValidUTF8 e.1 := by
  intro o ho
  simp only [ObjectProvider.List, Res.ok.injEq] at hl
  rw [← hl] at ho
  unfold MetadataProvider.List at ho
  rw [List.mem_map] at ho
  obtain ⟨e, he, hoe⟩ := ho
  have hpre := List.mem_takeWhile_imp he
  have hmem : e ∈ w.db :=
    (List.dropWhile_sublist _).subset ((List.takeWhile_sublist _).subset he)
  refine ⟨e, hmem, hoe.symm, List.isPrefixOf_iff_prefix.mp hpre, ?_⟩
  rw [← hoe, ← Reachable_KeyedByUrl p w hw e hmem]; rfl

theorem Remove_lookup (fs fs' : FileSystem) (name k : Str) (h : Remove fs name = some fs')
    (hk : k ≠ name) : lookupKey k fs'.files = lookupKey k fs.files := by
  unfold Remove at h
  by_cases h1 : fs.isFile name = true
  · rw [if_pos h1] at h
    cases h
    exact lookupKey_eraseKey_ne k name fs.files hk
  · rw [if_neg h1] at h
    split at h
    · cases h; rfl
    · cases h

/-- A copy onto another file than the source: the destination has the size and the bytes of
the source, the source keeps its bytes, and after the source is deleted under another URL
the destination record and its blob are still there. -/
theorem Copy_to_other_file (p : ObjectProvider) (S fromUrl : Str) (options : CopyOptions)
    (r : Rand) (now : Str) (w w' : World) (o srcO : Object) (B : Bytes)
    (hsrc : MetadataProvider.Get fromUrl w.db = Res.ok srcO)
    (hB : lookupKey (Join [p.fp.dir, srcO.FilePath]) w.fs.files = some B)
    (h : p.Copy S fromUrl options r now w = (Res.ok o, w'))
    (hne : Join [p.fp.dir, o.FilePath] ≠ Join [p.fp.dir, srcO.FilePath]) :
    o.Size = (B.length : Int) ∧
    lookupKey (Join [p.fp.dir, o.FilePath]) w'.fs.files = some B ∧
    lookupKey (Join [p.fp.dir, srcO.FilePath]) w'.fs.files = some B ∧
    (o.Url ≠ fromUrl →
      p.Get o.Url (p.Del [fromUrl] w') = Res.ok (parseObject (marshal o)) ∧
      lookupKey (Join [p.fp.dir, o.FilePath]) (p.Del [fromUrl] w').fs.files = some B) := by
  rcases Copy_eq p S fromUrl options r now w with h1 | ⟨fromO, file, hget, hopen, h1⟩
  · rw [h1] at h; cases h
  rw [hsrc] at hget
  cases hget
  rw [h1] at h
  have hfile : file = Reader.file (Join [p.fp.dir, srcO.FilePath]) := by
    unfold FileProvider.Get Open at hopen
    split at hopen
    · cases hopen; rfl
    · cases hopen
  obtain ⟨size, fpath, fs', hfp, ho, hw'⟩ := ObjectProvider_Put_ok p S _ r now w w' o h
  have hfpath : o.FilePath = fpath := by rw [ho]; rfl
  have hsize : o.Size = size := by rw [ho]; rfl
  obtain ⟨_, fs1, fs2, b, hm, hc, hread, hsz, hfs'⟩ :=
    FileProvider_Put_ok p.fp S _ _ w.fs fs' size fpath hfp
  rw [hfpath] at hne
  have hb : b = B := by
    simp only [hfile, readAll] at hread
    rw [Create_files fs1 fs2 _ hc, lookupKey_setKey_ne _ _ _ _ (Ne.symm hne),
      MkdirAll_files w.fs fs1 _ hm, hB] at hread
    exact (Option.some.inj hread).symm
  have hdest : lookupKey (Join [p.fp.dir, fpath]) w'.fs.files = some B := by
    rw [hw', hfs', ← hb]
    exact lookupKey_setKey_self _ _ _
  have hsrc' : lookupKey (Join [p.fp.dir, srcO.FilePath]) w'.fs.files = some B := by
    rw [hw', hfs']
    simp only
    rw [lookupKey_setKey_ne _ _ _ _ (Ne.symm hne), Create_files fs1 fs2 _ hc,
      lookupKey_setKey_ne _ _ _ _ (Ne.symm hne), MkdirAll_files w.fs fs1 _ hm, hB]
  refine ⟨by rw [hsize, hsz, hb], by rw [hfpath]; exact hdest, hsrc', ?_⟩
  intro hurl
  have hdb : w'.db = dbSet o.Url (marshal o) w.db := by rw [hw']
  have hlook : lookupKey fromUrl w'.db = lookupKey fromUrl w.db := by
    rw [hdb]; exact lookupKey_dbSet_ne _ _ _ _ (Ne.symm hurl)
  constructor
  · apply Get_eq_ok
    have : (p.Del [fromUrl] w').db = eraseKey fromUrl w'.db := by
      simp only [ObjectProvider.Del, List.foldl_cons, List.foldl_nil]
      exact delOne_db p w' fromUrl
    rw [this, lookupKey_eraseKey_ne _ _ _ hurl, hdb]
    exact lookupKey_dbSet_self _ _ _
  · rw [hfpath]
    simp only [ObjectProvider.Del, List.foldl_cons, List.foldl_nil, ObjectProvider.delOne]
    have hg : MetadataProvider.Get fromUrl w'.db = Res.ok srcO := by
      unfold MetadataProvider.Get at hsrc ⊢
      rw [hlook]; exact hsrc
    rw [hg]
    simp only
    cases hrem : p.fp.Del srcO.FilePath w'.fs with
    | none => exact hdest
    | some fs3 =>
      simp only
      rw [Remove_lookup w'.fs fs3 _ _ hrem hne]
      exact hdest

theorem AddRandomSuffix_length (r : Rand) (P : Str) :
    (AddRandomSuffix r P).length = P.length + 31 := by
  obtain ⟨pre, post, h1, _, _, h4⟩ := AddRandomSuffix_spec P
  rw [h4 r]
  conv_rhs => rw [h1]
  simp only [List.length_append, List.length_cons, generateRandomString_length]
  omega

/-- A pathname as JSON keeps it is never the suffixed pathname: the coercion adds an even
number of bytes, the suffix 31. -/
theorem toValidUTF8_ne_AddRandomSuffix (r : Rand) (P : Str) :
    toValidUTF8 P ≠ AddRandomSuffix r P := by
  intro h
  obtain ⟨m, hm⟩ := toValidUTF8_length P
  have hl := congrArg List.length h
  rw [hm, AddRandomSuffix_length] at hl
  omega

/-- C2. The download path after a successful `Put`: `ObjectProvider.Get` returns the record
with a nil `fp`, so `Object.GetFile`, the call the download handler makes, does not open the
blob but dereferences a nil pointer; the handler never gets to serve the bytes.  Here `hello`
is put at `a.txt` in store `s` and then downloaded. -/
theorem download_after_put_panics :
    (exampleProvider.Put "s".toStr putHelloOptions rand1 exampleNow exampleWorld).1
      = Res.ok (putObject exampleProvider "s".toStr putHelloOptions rand1 exampleNow 5
          "s/a.txt".toStr) ∧
    lookupKey "/tmp/blob_fs/s/a.txt".toStr worldAfterPutHello.fs.files = some helloBytes ∧
    (∃ g, exampleProvider.Get helloUrl worldAfterPutHello = Res.ok g ∧
      g.GetFile worldAfterPutHello.fs = Res.panic) ∧
    Download exampleProvider helloUrl worldAfterPutHello = Res.panic ∧
    ∀ (p : ObjectProvider) (url : Str) (w : World) (b : Bytes), Download p url w ≠ Res.ok b := by
  refine ⟨by decide, by decide, ⟨_, rfl, by decide⟩, by decide, ?_⟩
  intro p url w b
  unfold Download ObjectProvider.Get MetadataProvider.Get
  cases lookupKey url w.db with
  | none => simp
  | some j => simp [Object.GetFile, parseObject]

/-- C3. Listing store `s` after one object was put into store `s` and one into store `sx`:
the listing has the object of store `sx`, whose `Url` does not start with
`http://localhost:3001/public/s/`.  The prefix that `ObjectProvider.List` scans is
`CreatePublicUrl(store, "")`, which is `http://localhost:3001/public/s` without the slash. -/
theorem list_returns_other_store :
    Reachable exampleProvider worldTwoStores ∧
    CreatePublicUrl "s".toStr [] = "http://localhost:3001/public/s".toStr ∧
    ∃ l o, exampleProvider.List "s".toStr worldTwoStores = Res.ok l ∧ o ∈ l ∧
      o.Url = "http://localhost:3001/public/sx/q".toStr ∧
      o.FilePath = "sx/q".toStr ∧
      (BaseUrl ++ "/public/".toStr ++ "s".toStr ++ "/".toStr).isPrefixOf o.Url = false := by
  refine ⟨?_, by decide, ?_⟩
  · exact Reachable.put _ _ _ _ _ (Reachable.put _ _ _ _ _ Reachable.init)
  · refine ⟨_, parseObject (marshal (putObject exampleProvider "sx".toStr putQOptions rand1
      exampleNow 5 "sx/q".toStr)), rfl, by decide, by decide, by decide, by decide⟩

/-- C5. Copy onto the on-disk path of the source.  With `hello` stored at `a.txt` of store
`s`, `Copy(s, url, {Pathname: "a.txt"})` succeeds, but the destination has `Size` 0 and an
empty blob: `Put` truncates the file with `os.Create` before the opened source is read.  The
same happens for the destination `../../blob_fs/s/a.txt`, which has another `Url` and the
same file; after `Del` of the source URL that destination is still in the index and its blob
is gone. -/
theorem copy_onto_source_truncates :
    lookupKey "/tmp/blob_fs/s/a.txt".toStr worldAfterPutHello.fs.files = some helloBytes ∧
    (∃ o w', exampleProvider.Copy "s".toStr helloUrl copyOntoSourceOptions rand1 exampleNow
        worldAfterPutHello = (Res.ok o, w') ∧
      o.Size = 0 ∧ o.FilePath = "s/a.txt".toStr ∧
      lookupKey "/tmp/blob_fs/s/a.txt".toStr w'.fs.files = some []) ∧
    (∃ o, (exampleProvider.Copy "s".toStr helloUrl copyAliasOptions rand1 exampleNow
        worldAfterPutHello).1 = Res.ok o ∧
      o.Url = "http://localhost:3001/blob_fs/s/a.txt".toStr ∧ o.Url ≠ helloUrl ∧
      o.Size = 0 ∧
      (∃ g, exampleProvider.Get o.Url (exampleProvider.Del [helloUrl] worldAfterAliasCopy)
          = Res.ok g ∧ g.FilePath = o.FilePath) ∧
      exampleProvider.fp.Get o.FilePath
        (exampleProvider.Del [helloUrl] worldAfterAliasCopy).fs = none) := by
  refine ⟨by decide, ⟨_, _, rfl, by decide, by decide, by decide⟩,
    ⟨_, rfl, by decide, by decide, by decide, ⟨_, rfl, by decide⟩, by decide⟩⟩

/-- C7. The cache-control string the code builds.  For every `m` it is
`public, max-age=<v>,s-maxage=<e>` with `v` the parsed value or 31536000 and `e = min(v, 300)`,
and there is no blank between the comma and `s-maxage`: `"600"` gives
`public, max-age=600,s-maxage=300` and not `public, max-age=600, s-maxage=300`; likewise for
`""` and `"100"`. -/
theorem cache_control_format :
    (∀ m : Str, CreateCacheControl m =
      "public, max-age=".toStr ++ formatInt ((Atoi m).getD 31536000) ++ ",s-maxage=".toStr
        ++ formatInt (min ((Atoi m).getD 31536000) 300)) ∧
    CreateCacheControl "600".toStr = "public, max-age=600,s-maxage=300".toStr ∧
    CreateCacheControl "600".toStr ≠ "public, max-age=600, s-maxage=300".toStr ∧
    CreateCacheControl [] = "public, max-age=31536000,s-maxage=300".toStr ∧
    CreateCacheControl [] ≠ "public, max-age=31536000, s-maxage=300".toStr ∧
    CreateCacheControl "abc".toStr = "public, max-age=31536000,s-maxage=300".toStr ∧
    CreateCacheControl "100".toStr = "public, max-age=100,s-maxage=100".toStr ∧
    CreateCacheControl "100".toStr ≠ "public, max-age=100, s-maxage=100".toStr := by
  refine ⟨?_, by decide, by decide, by decide, by decide, by decide, by decide, by decide⟩
  intro m
  unfold CreateCacheControl
  cases Atoi m <;> rfl

/-- C9. `AddRandomSuffix(p)` is `p` with the one string `-t` inserted right before the first
occurrence of `path.Ext(p)` in `p`: `p` splits as `pre ++ post` with the extension a prefix
of `post` and occurring nowhere earlier, the result is `pre ++ "-" ++ t ++ post`, and the
token `t` has exactly 30 characters, each from the 62 distinct symbols of `charset`.  The
extension is the suffix of `p` from the final dot of its final slash-separated element. -/
theorem addRandomSuffix_inserts_token (r : Rand) (p : Str) :
    ∃ pre post t, p = pre ++ post ∧ Ext p <+: post ∧
      (∀ k < pre.length, ¬ Ext p <+: p.drop k) ∧
      AddRandomSuffix r p = pre ++ (45 :: t) ++ post ∧
      t = generateRandomString r 30 ∧ t.length = 30 ∧ (∀ c ∈ t, c ∈ charset) ∧
      charset.length = 62 ∧ charset.Nodup ∧
      charset = "0123456789ABCDEFGHIJKLMNOPQRSTUVWXYZabcdefghijklmnopqrstuvwxyz".toStr ∧
      Ext p = specExt p := by
  obtain ⟨pre, post, h1, h2, h3, h4⟩ := AddRandomSuffix_spec p
  exact ⟨pre, post, generateRandomString r 30, h1, h2, h3, h4 r, rfl,
    generateRandomString_length r 30, generateRandomString_mem r 30, by decide, by decide, rfl,
    Ext_eq_specExt p⟩

/-- C8, as stated, fails: `path.Join` cleans the path, so `CreatePublicUrl` is not the plain
concatenation for an empty pathname, a trailing or doubled slash, or a `.` or `..`
element. -/
theorem createPublicUrl_not_concat :
    CreatePublicUrl "s".toStr [] = "http://localhost:3001/public/s".toStr ∧
    CreatePublicUrl "s".toStr [] ≠ concatPublicUrl "s".toStr [] ∧
    CreatePublicUrl "s".toStr "a/".toStr ≠ concatPublicUrl "s".toStr "a/".toStr ∧
    CreatePublicUrl "s".toStr "a//b".toStr ≠ concatPublicUrl "s".toStr "a//b".toStr ∧
    CreatePublicUrl "s".toStr "a/./b".toStr ≠ concatPublicUrl "s".toStr "a/./b".toStr ∧
    CreatePublicUrl "s".toStr "a/../b".toStr = "http://localhost:3001/public/s/b".toStr ∧
    CreatePublicUrl "s".toStr "a/../b".toStr ≠ concatPublicUrl "s".toStr "a/../b".toStr := by
  decide

/-- C8, amended. For every store and every pathname that are both made of plain elements
with one slash between two neighbours (not empty, no leading, trailing or doubled slash, no
`.` or `..` element), `CreatePublicUrl(store, pathname)` is the plain concatenation
`baseUrl + "/public/" + store + "/" + pathname`, with `baseUrl = "http://localhost:3001"`. -/
theorem createPublicUrl_plain (store pathname : Str) (hs : PlainPath store)
    (hp : PlainPath pathname) :
    CreatePublicUrl store pathname = concatPublicUrl store pathname ∧
    BaseUrl = "http://localhost:3001".toStr := by
  refine ⟨?_, by decide⟩
  have hpub : PlainPath "public".toStr := by decide
  have hall : PlainPath ("public".toStr ++ 47 :: (store ++ 47 :: pathname)) :=
    PlainPath_append_slash _ _ hpub (PlainPath_append_slash _ _ hs hp)
  have hj : Join [PublicBasePath, store, pathname]
      = Clean (47 :: ("public".toStr ++ 47 :: (store ++ 47 :: pathname))) := by
    have hne : PublicBasePath ≠ [] := by decide
    rw [Join_cons_of_ne_nil _ _ hne]
    rfl
  rw [CreatePublicUrl, hj, Clean_rooted_plain _ hall]
  have hb : BaseUrl = "http://localhost:3001".toStr := by decide
  rw [hb, concatPublicUrl]
  have hslash : "/public/".toStr = 47 :: ("public".toStr ++ [47]) := by decide
  have hs1 : "/".toStr = [47] := by decide
  rw [hslash, hs1]
  simp [List.append_assoc]

/-- Witness of C8 as amended: store `tenantA`, pathname `images/cat.png`. -/
theorem createPublicUrl_plain_witness :
    PlainPath "tenantA".toStr ∧ PlainPath "images/cat.png".toStr ∧
    CreatePublicUrl "tenantA".toStr "images/cat.png".toStr
      = concatPublicUrl "tenantA".toStr "images/cat.png".toStr ∧
    BaseUrl = "http://localhost:3001".toStr :=
  ⟨by decide, by decide,
    createPublicUrl_plain "tenantA".toStr "images/cat.png".toStr (by decide) (by decide)⟩

/-- C6, as stated, fails: two `Put` calls on store `s` and pathname `a/../b` with
`AddRandomSuffix` and different tokens both succeed and return the same `Url` and the same
`FilePath`; the element that carries the token is cancelled by the `..` after it.  The second
call overwrites the record and the blob of the first. -/
theorem suffixed_puts_same_url :
    generateRandomString rand1 30 ≠ generateRandomString rand2 30 ∧
    ∃ o1 w1 o2 w2,
      exampleProvider.Put "s".toStr (putDotDotOptions helloBytes) rand1 exampleNow
        exampleWorld = (Res.ok o1, w1) ∧
      exampleProvider.Put "s".toStr (putDotDotOptions [1]) rand2 exampleNow w1
        = (Res.ok o2, w2) ∧
      o1.Url = "http://localhost:3001/public/s/b".toStr ∧ o1.Url = o2.Url ∧
      o1.FilePath = o2.FilePath ∧ o1.Size = 5 ∧
      exampleProvider.Get o1.Url w2 = Res.ok (parseObject (marshal o2)) ∧
      (parseObject (marshal o2)).Size = 1 ∧
      lookupKey "/tmp/blob_fs/s/b".toStr w2.fs.files = some [1] := by
  refine ⟨by decide, _, _, _, _, rfl, rfl, ?_, ?_, ?_, ?_, ?_, ?_, ?_⟩ <;> decide

/-- C6, amended. For every store `S` and every pathname `P`, two successful `Put` calls on
`(S, P)` with `AddRandomSuffix` whose 30-character tokens differ return two distinct `Url`s
exactly when no `..` element after the place of the suffix cancels the element that
receives it, and two distinct `FilePath`s under the same condition.  The second call is
always retrievable: `Get` of its `Url` returns its record and its blob holds its bytes.
Under the condition the first call is retrievable too, with its own record and bytes; when
the condition fails, `Get` of the first `Url` returns the record of the second call and the
blob of the first call holds the bytes of the second. -/
theorem suffixed_puts_distinct (p : ObjectProvider) (S P : Str) (B1 B2 : Bytes)
    (ct1 cc1 ct2 cc2 : Str) (r1 r2 : Rand) (now1 now2 : Str) (w w1 w2 : World)
    (o1 o2 : Object)
    (htok : generateRandomString r1 30 ≠ generateRandomString r2 30)
    (h1 : p.Put S (putSuffixedOptions P B1 ct1 cc1) r1 now1 w = (Res.ok o1, w1))
    (h2 : p.Put S (putSuffixedOptions P B2 ct2 cc2) r2 now2 w1 = (Res.ok o2, w2)) :
    (o1.Url ≠ o2.Url ↔ SuffixSurvives P) ∧
    (o1.FilePath ≠ o2.FilePath ↔ SuffixSurvives P) ∧
    p.Get o2.Url w2 = Res.ok (parseObject (marshal o2)) ∧
    lookupKey (Join [p.fp.dir, o2.FilePath]) w2.fs.files = some B2 ∧
    (SuffixSurvives P →
      p.Get o1.Url w2 = Res.ok (parseObject (marshal o1)) ∧
      lookupKey (Join [p.fp.dir, o1.FilePath]) w2.fs.files = some B1) ∧
    (¬ SuffixSurvives P →
      p.Get o1.Url w2 = Res.ok (parseObject (marshal o2)) ∧
      lookupKey (Join [p.fp.dir, o1.FilePath]) w2.fs.files = some B2) := by
  obtain ⟨pre, dh, hdh, hdt, hadd⟩ := AddRandomSuffix_shape P
  have ht1 := generateRandomString_no_slash r1 30
  have ht2 := generateRandomString_no_slash r2 30
  obtain ⟨size1, fpath1, fs1, hfp1, ho1, hw1⟩ := ObjectProvider_Put_ok p S _ r1 now1 w w1 o1 h1
  obtain ⟨size2, fpath2, fs2, hfp2, ho2, hw2⟩ := ObjectProvider_Put_ok p S _ r2 now2 w1 w2 o2 h2
  have hd1 : onDiskPathname r1 (putSuffixedOptions P B1 ct1 cc1)
      = pre ++ (45 :: generateRandomString r1 30) ++ dh
          ++ joinAfter (elementsAfterSuffix P) := by
    simp only [onDiskPathname, putSuffixedOptions, if_true]; exact hadd r1
  have hd2 : onDiskPathname r2 (putSuffixedOptions P B2 ct2 cc2)
      = pre ++ (45 :: generateRandomString r2 30) ++ dh
          ++ joinAfter (elementsAfterSuffix P) := by
    simp only [onDiskPathname, putSuffixedOptions, if_true]; exact hadd r2
  rw [hd1] at hfp1
  rw [hd2] at hfp2
  have hu1 : o1.Url = CreatePublicUrl S
      (pre ++ (45 :: generateRandomString r1 30) ++ dh
        ++ joinAfter (elementsAfterSuffix P)) := by
    rw [ho1, ← hd1]; rfl
  have hu2 : o2.Url = CreatePublicUrl S
      (pre ++ (45 :: generateRandomString r2 30) ++ dh
        ++ joinAfter (elementsAfterSuffix P)) := by
    rw [ho2, ← hd2]; rfl
  obtain ⟨hrel1, _⟩ := FileProvider_Put_ok p.fp S _ _ w.fs fs1 size1 fpath1 hfp1
  obtain ⟨hrel2, _⟩ := FileProvider_Put_ok p.fp S _ _ w1.fs fs2 size2 fpath2 hfp2
  have hfp1eq : o1.FilePath = fpath1 := by rw [ho1]; rfl
  have hfp2eq : o2.FilePath = fpath2 := by rw [ho2]; rfl
  obtain ⟨fa, b1, hread1, hl1, _⟩ := FileProvider_Put_lookup p.fp S _ _ w.fs fs1 size1 fpath1 hfp1
  obtain ⟨fb, b2, hread2, hl2, hother⟩ :=
    FileProvider_Put_lookup p.fp S _ _ w1.fs fs2 size2 fpath2 hfp2
  have hb1 : b1 = B1 := by
    simp only [putSuffixedOptions, readAll, Option.some.injEq] at hread1
    exact hread1.symm
  have hb2 : b2 = B2 := by
    simp only [putSuffixedOptions, readAll, Option.some.injEq] at hread2
    exact hread2.symm
  have hw1fs : w1.fs = fs1 := by rw [hw1]
  have hw2fs : w2.fs = fs2 := by rw [hw2]
  have hw1db : w1.db = dbSet o1.Url (marshal o1) w.db := by rw [hw1]
  have hw2db : w2.db = dbSet o2.Url (marshal o2) w1.db := by rw [hw2]
  have hget2 : p.Get o2.Url w2 = Res.ok (parseObject (marshal o2)) := by
    apply Get_eq_ok
    rw [hw2db]
    exact lookupKey_dbSet_self _ _ _
  have hblob2 : lookupKey (Join [p.fp.dir, o2.FilePath]) w2.fs.files = some B2 := by
    rw [hw2fs, hfp2eq, hl2, hb2]
  by_cases hk : SuffixSurvives P
  · -- the element with the token survives the cleaning
    have hurl : o1.Url ≠ o2.Url := by
      rw [hu1, hu2, CreatePublicUrl_token S pre _ dh _ ht1 hdh hdt hk,
        CreatePublicUrl_token S pre _ dh _ ht2 hdh hdt hk]
      exact fun h => htok (token_cancel _ _ _ _ h)
    have hf1 : o1.FilePath = cleanPrefix (joinTwo S pre)
        ++ (45 :: generateRandomString r1 30) ++ dh
        ++ joinAfter (cleanSegs true (elementsAfterSuffix P)).reverse := by
      rw [hfp1eq, hrel1]
      exact Join_two_token S pre _ dh _ ht1 hdh hdt hk
    have hf2 : o2.FilePath = cleanPrefix (joinTwo S pre)
        ++ (45 :: generateRandomString r2 30) ++ dh
        ++ joinAfter (cleanSegs true (elementsAfterSuffix P)).reverse := by
      rw [hfp2eq, hrel2]
      exact Join_two_token S pre _ dh _ ht2 hdh hdt hk
    have hfile : o1.FilePath ≠ o2.FilePath := by
      rw [hf1, hf2]
      intro h
      rw [List.append_assoc _ dh, List.append_assoc _ dh] at h
      exact htok (token_cancel _ _ _ _ h)
    have hplain : ∀ y ∈ (cleanSegs true (elementsAfterSuffix P)).reverse,
        PlainElem y ∧ 47 ∉ y := by
      intro y hy
      rw [List.mem_reverse] at hy
      exact foldl_cleanStep_true_plain (elementsAfterSuffix P) []
        (fun x hx => by cases hx) hdt y hy
    have hF : ∀ y ∈ (cleanSegs true (elementsAfterSuffix P)).reverse, 47 ∉ y :=
      fun y hy => (hplain y hy).2
    have hkF : keepsDepth 0 (cleanSegs true (elementsAfterSuffix P)).reverse = true :=
      keepsDepth_of_plain 0 _ (fun y hy => (hplain y hy).1)
    have habs : Join [p.fp.dir, o1.FilePath] ≠ Join [p.fp.dir, o2.FilePath] := by
      rw [hf1, hf2, Join_two_token p.fp.dir _ _ dh _ ht1 hdh hF hkF,
        Join_two_token p.fp.dir _ _ dh _ ht2 hdh hF hkF]
      intro h
      rw [List.append_assoc _ dh, List.append_assoc _ dh] at h
      exact htok (token_cancel _ _ _ _ h)
    refine ⟨⟨fun _ => hk, fun _ => hurl⟩, ⟨fun _ => hk, fun _ => hfile⟩, hget2, hblob2,
      fun _ => ⟨?_, ?_⟩, fun hn => absurd hk hn⟩
    · apply Get_eq_ok
      rw [hw2db, lookupKey_dbSet_ne _ _ _ _ hurl, hw1db]
      exact lookupKey_dbSet_self _ _ _
    · rw [hw2fs, hfp1eq]
      rw [hfp1eq, hfp2eq] at habs
      rw [hother _ habs, hw1fs, hl1, hb1]
  · -- a later `..` cancels the element with the token
    have hk' : keepsDepth 0 (elementsAfterSuffix P) = false := by
      simpa using hk
    have hurl : o1.Url = o2.Url := by
      rw [hu1, hu2]
      exact CreatePublicUrl_token_cancel S pre _ _ dh _ ht1 ht2 hdh hdt hk'
    have hfile : o1.FilePath = o2.FilePath := by
      rw [hfp1eq, hfp2eq, hrel1, hrel2]
      exact Join_two_token_cancel S pre _ _ dh _ ht1 ht2 hdh hdt hk'
    refine ⟨⟨fun h => absurd hurl h, fun h => absurd h hk⟩,
      ⟨fun h => absurd hfile h, fun h => absurd h hk⟩, hget2, hblob2,
      fun h => absurd h hk, fun _ => ⟨?_, ?_⟩⟩
    · rw [hurl]; exact hget2
    · rw [hfile]; exact hblob2

/-- Witness of C6 as amended: two suffixed `Put` calls at `images/cat.png` of store `s`. -/
theorem suffixed_puts_distinct_witness :
    generateRandomString rand1 30 ≠ generateRandomString rand2 30 ∧
    exampleProvider.Put "s".toStr (putSuffixedOptions "images/cat.png".toStr helloBytes [] [])
      rand1 exampleNow exampleWorld = (Res.ok suffixedObject1, worldSuffixed1) ∧
    exampleProvider.Put "s".toStr (putSuffixedOptions "images/cat.png".toStr [1] [] [])
      rand2 exampleNow worldSuffixed1 = (Res.ok suffixedObject2, worldSuffixed2) ∧
    SuffixSurvives "images/cat.png".toStr ∧
    (suffixedObject1.Url ≠ suffixedObject2.Url ↔ SuffixSurvives "images/cat.png".toStr) ∧
    (suffixedObject1.FilePath ≠ suffixedObject2.FilePath
      ↔ SuffixSurvives "images/cat.png".toStr) ∧
    exampleProvider.Get suffixedObject2.Url worldSuffixed2
      = Res.ok (parseObject (marshal suffixedObject2)) ∧
    lookupKey (Join [exampleProvider.fp.dir, suffixedObject2.FilePath]) worldSuffixed2.fs.files
      = some [1] ∧
    (SuffixSurvives "images/cat.png".toStr →
      exampleProvider.Get suffixedObject1.Url worldSuffixed2
        = Res.ok (parseObject (marshal suffixedObject1)) ∧
      lookupKey (Join [exampleProvider.fp.dir, suffixedObject1.FilePath])
        worldSuffixed2.fs.files = some helloBytes) ∧
    (¬ SuffixSurvives "images/cat.png".toStr →
      exampleProvider.Get suffixedObject1.Url worldSuffixed2
        = Res.ok (parseObject (marshal suffixedObject2)) ∧
      lookupKey (Join [exampleProvider.fp.dir, suffixedObject1.FilePath])
        worldSuffixed2.fs.files = some [1]) :=
  have htok : generateRandomString rand1 30 ≠ generateRandomString rand2 30 := by decide
  have h1 : exampleProvider.Put "s".toStr
      (putSuffixedOptions "images/cat.png".toStr helloBytes [] []) rand1 exampleNow
      exampleWorld = (Res.ok suffixedObject1, worldSuffixed1) := by decide
  have h2 : exampleProvider.Put "s".toStr
      (putSuffixedOptions "images/cat.png".toStr [1] [] []) rand2 exampleNow
      worldSuffixed1 = (Res.ok suffixedObject2, worldSuffixed2) := by decide
  ⟨htok, h1, h2, by decide,
    suffixed_puts_distinct exampleProvider "s".toStr "images/cat.png".toStr helloBytes [1]
      [] [] [] [] rand1 rand2 exampleNow exampleNow exampleWorld worldSuffixed1
      worldSuffixed2 suffixedObject1 suffixedObject2 htok h1 h2⟩

/-- C11. The handler of `AuthRequired` on a header with exactly three underscore-separated
components: for `Bearer a_b_c` the token splits into `a`, `b`, `c`, the check `len(p) < 3`
lets it pass, and the read `p[3]` is out of range, so the handler panics instead of
answering 401.  For every header value the handler answers 401 when there are fewer than
three components, panics when there are exactly three, and sets the store id to the fourth
component when there are four or more. -/
theorem auth_three_components_panics :
    Split (ReplaceAll "Bearer a_b_c".toStr "Bearer ".toStr []) 95
      = ["a".toStr, "b".toStr, "c".toStr] ∧
    AuthRequired ["Bearer a_b_c".toStr] = AuthResult.panic ∧
    AuthRequired ["a_b_c".toStr] = AuthResult.panic ∧
    AuthRequired ["Bearer a_b".toStr]
      = AuthResult.rejected 401 "Mailformed Authorization header".toStr ∧
    AuthRequired ["Bearer vercel_blob_rw_store1_secret".toStr]
      = AuthResult.next "store1".toStr ∧
    AuthRequired [] = AuthResult.rejected 401 "Authorization header is required".toStr ∧
    ∀ (h0 : Str) (rest : List Str),
      AuthRequired (h0 :: rest) =
        if (Split (ReplaceAll h0 "Bearer ".toStr []) 95).length < 3 then
          AuthResult.rejected 401 "Mailformed Authorization header".toStr
        else if (Split (ReplaceAll h0 "Bearer ".toStr []) 95).length = 3 then
          AuthResult.panic
        else AuthResult.next ((Split (ReplaceAll h0 "Bearer ".toStr []) 95).getD 3 []) := by
  refine ⟨by decide, by decide, by decide, by decide, by decide, by decide, ?_⟩
  intro h0 rest
  simp only [AuthRequired]
  generalize Split (ReplaceAll h0 "Bearer ".toStr []) 95 = p
  by_cases h1 : p.length < 3
  · rw [if_pos h1, if_pos h1]
  · rw [if_neg h1, if_neg h1]
    by_cases h2 : p.length = 3
    · rw [if_pos h2]
      have hnone : p.get? 3 = none := List.get?_eq_none.mpr (Nat.le_of_eq h2)
      rw [hnone]
    · rw [if_neg h2]
      have hlt : 3 < p.length := by omega
      have hsome : p.get? 3 = some (p.getD 3 []) := by
        rw [List.getD_eq_getElem _ _ hlt, List.get?_eq_getElem?, List.getElem?_eq_getElem hlt]
      rw [hsome]

/-- C1, as stated, fails: `hello` put at the pathname `\xff.txt` of store `s`.  The record
goes into the index as JSON, which replaces the byte `FF` by U+FFFD, while the key keeps the
raw bytes: `Get` of the returned `Url` succeeds and returns a record whose `Url`,
`DownloadUrl`, `Pathname`, `ContentDisposition` and `FilePath` differ from those `Put`
returned. -/
theorem put_get_differs_on_invalid_utf8 :
    exampleProvider.Put "s".toStr putBadOptions rand1 exampleNow exampleWorld
      = (Res.ok badObject, worldAfterPutBad) ∧
    badObject.Url = badUrl ∧ badObject.Pathname = "\xff.txt".toStr ∧
    ∃ g, exampleProvider.Get badObject.Url worldAfterPutBad = Res.ok g ∧
      g.Url = coercedBadUrl ∧ g.Url ≠ badObject.Url ∧
      g.Pathname = "\xef\xbf\xbd.txt".toStr ∧ g.Pathname ≠ badObject.Pathname ∧
      g.DownloadUrl ≠ badObject.DownloadUrl ∧
      g.ContentDisposition ≠ badObject.ContentDisposition ∧
      g.FilePath = "s/\xef\xbf\xbd.txt".toStr ∧ g.FilePath ≠ badObject.FilePath := by
  refine ⟨by decide, by decide, by decide, parseObject (marshal badObject), by decide,
    by decide, by decide, by decide, by decide, by decide, by decide, by decide, by decide⟩

/-- C1, amended. Round trip of the record: when `ObjectProvider.Put` of a byte payload `B`
succeeds, `ObjectProvider.Get` of the returned `Url` succeeds, and the record it returns has
`Size = len(B)` and, as `Url`, `DownloadUrl`, `Pathname`, `ContentType`,
`ContentDisposition`, `CacheControl`, `UploadedAt` and `FilePath`, the strings of the record
`Put` returned coerced to valid UTF-8 (every byte that is not part of a valid sequence
replaced by U+FFFD); each of them is identical to the one `Put` returned exactly when that
one is valid UTF-8. -/
theorem put_get_roundtrip (p : ObjectProvider) (S P : Str) (B : Bytes) (suffix : Bool)
    (contentType maxAge : Str) (r : Rand) (now : Str) (w w' : World) (o : Object)
    (h : p.Put S { Pathname := P, Data := Reader.bytes B, AddRandomSuffix := suffix,
                   ContentType := contentType, CacheControlMaxAge := maxAge } r now w
          = (Res.ok o, w')) :
    ∃ g, p.Get o.Url w' = Res.ok g ∧ g.Size = (B.length : Int) ∧
      StoredAs g.Url o.Url ∧ StoredAs g.DownloadUrl o.DownloadUrl ∧
      StoredAs g.Pathname o.Pathname ∧ StoredAs g.ContentType o.ContentType ∧
      StoredAs g.ContentDisposition o.ContentDisposition ∧
      StoredAs g.CacheControl o.CacheControl ∧ StoredAs g.UploadedAt o.UploadedAt ∧
      StoredAs g.FilePath o.FilePath := by
  obtain ⟨size, filepath, fs', hfp, ho, hw⟩ := ObjectProvider_Put_ok p S _ r now w w' o h
  obtain ⟨_, fs1, fs2, b, _, _, hread, hsize, _⟩ :=
    FileProvider_Put_ok p.fp S _ _ w.fs fs' size filepath hfp
  have hb : b = B := by
    simp only [readAll, Option.some.injEq] at hread
    exact hread.symm
  have hget : p.Get o.Url w' = Res.ok (parseObject (marshal o)) := by
    apply Get_eq_ok
    rw [hw]
    exact lookupKey_dbSet_self _ _ _
  refine ⟨parseObject (marshal o), hget, ?_, StoredAs_toValidUTF8 _, StoredAs_toValidUTF8 _,
    StoredAs_toValidUTF8 _, StoredAs_toValidUTF8 _, StoredAs_toValidUTF8 _,
    StoredAs_toValidUTF8 _, StoredAs_toValidUTF8 _, StoredAs_toValidUTF8 _⟩
  show o.Size = _
  rw [ho, ← hb]
  exact hsize

/-- Witness of C1 as amended: `hello` put at `a.txt` of store `s` and looked up again. -/
theorem put_get_roundtrip_witness :
    exampleProvider.Put "s".toStr putHelloOptions rand1 exampleNow exampleWorld
      = (Res.ok (putObject exampleProvider "s".toStr putHelloOptions rand1 exampleNow 5
          "s/a.txt".toStr), worldAfterPutHello) ∧
    ∃ g, exampleProvider.Get helloUrl worldAfterPutHello = Res.ok g ∧
      g.Size = ((helloBytes.length : Nat) : Int) ∧
      StoredAs g.Url helloUrl ∧
      StoredAs g.DownloadUrl "http://localhost:3001/public/s/a.txt?download=1".toStr ∧
      StoredAs g.Pathname "a.txt".toStr ∧
      StoredAs g.ContentType "text/plain".toStr ∧
      StoredAs g.ContentDisposition "inline; filename=\"a.txt\"".toStr ∧
      StoredAs g.CacheControl "public, max-age=31536000,s-maxage=300".toStr ∧
      StoredAs g.UploadedAt exampleNow ∧
      StoredAs g.FilePath "s/a.txt".toStr :=
  have hp : exampleProvider.Put "s".toStr putHelloOptions rand1 exampleNow exampleWorld
      = (Res.ok (putObject exampleProvider "s".toStr putHelloOptions rand1 exampleNow 5
          "s/a.txt".toStr), worldAfterPutHello) := by decide
  ⟨hp, put_get_roundtrip exampleProvider "s".toStr "a.txt".toStr helloBytes false
    "text/plain".toStr [] rand1 exampleNow exampleWorld worldAfterPutHello
    (putObject exampleProvider "s".toStr putHelloOptions rand1 exampleNow 5 "s/a.txt".toStr)
    hp⟩

/-- C4, as stated, fails: with `hello` stored at `\xff.txt` of store `s`, take for `u` the
URL of that object as JSON keeps it, with U+FFFD for the byte `FF`.  No record has the key
`u`, so `Del(u)` removes nothing; `Get(u)` reports an error, but the listing of store `s`
still has an object whose `Url` is `u`. -/
theorem del_keeps_coerced_url :
    Reachable exampleProvider worldAfterPutBad ∧
    coercedBadUrl ∈ [coercedBadUrl] ∧
    exampleProvider.Get coercedBadUrl (exampleProvider.Del [coercedBadUrl] worldAfterPutBad)
      = Res.error ∧
    ∃ l o, exampleProvider.List "s".toStr
        (exampleProvider.Del [coercedBadUrl] worldAfterPutBad) = Res.ok l ∧
      o ∈ l ∧ o.Url = coercedBadUrl := by
  refine ⟨Reachable.put _ _ _ _ _ Reachable.init, by decide, by decide,
    _, parseObject (marshal badObject), rfl, by decide, by decide⟩

/-- C4, amended. Delete visibility: in every reachable state, for every list of URLs passed
to `ObjectProvider.Del` and every URL `u` of the list, after the call
`ObjectProvider.Get(u)` reports an error, whatever the other URLs of the list are (with or
without a record), and no listing has a record stored under `u`: every listed object is a
record of the index whose key is none of the URLs of the list, and its `Url` is that key
coerced to valid UTF-8.  So an object with `Url` `u` is listed only for a record under
another key, one that is not valid UTF-8 and reads `u` once coerced; when every key of the
index is valid UTF-8 no listing has an object with `Url` `u`. -/
theorem del_then_absent (p : ObjectProvider) (w : World) (urls : List Str) (u : Str)
    (hw : Reachable p w) (hu : u ∈ urls) :
    p.Get u (p.Del urls w) = Res.error ∧
    (∀ (S : Str) (l : List Object), p.List S (p.Del urls w) = Res.ok l →
      ∀ o ∈ l, ∃ e ∈ (p.Del urls w).db, o = parseObject e.2 ∧ e.1 ∉ urls ∧
        o.Url = toValidUTF8 e.1 ∧ (o.Url = u → utf8Valid e.1 = false)) ∧
    ((∀ e ∈ w.db, utf8Valid e.1 = true) →
      ∀ (S : Str) (l : List Object), p.List S (p.Del urls w) = Res.ok l →
        ∀ o ∈ l, o.Url ≠ u) := by
  have hlist : ∀ (S : Str) (l : List Object), p.List S (p.Del urls w) = Res.ok l →
      ∀ o ∈ l, ∃ e ∈ (p.Del urls w).db, o = parseObject e.2 ∧ e.1 ∉ urls ∧
        o.Url = toValidUTF8 e.1 ∧ (o.Url = u → utf8Valid e.1 = false) := by
    intro S l hl o ho
    simp only [ObjectProvider.List, Res.ok.injEq] at hl
    rw [← hl] at ho
    obtain ⟨e, he, hoe⟩ := mem_MetadataProvider_List _ _ o ho
    have hk := Reachable_KeyedByUrl p _ (Reachable.del w urls hw) e he
    have hnot := ((mem_Del_db p urls w e).mp he).2
    have hurl : o.Url = toValidUTF8 e.1 := by rw [hoe, ← hk]; rfl
    refine ⟨e, he, hoe, hnot, hurl, ?_⟩
    intro hou
    cases hv : utf8Valid e.1 with
    | false => rfl
    | true =>
      exfalso
      apply hnot
      have : e.1 = u := by rw [← hou, hurl, toValidUTF8_of_valid _ hv]
      rw [this]; exact hu
  refine ⟨?_, hlist, ?_⟩
  · apply Get_eq_error
    rw [lookupKey_eq_none]
    intro e he heq
    exact ((mem_Del_db p urls w e).mp he).2 (heq ▸ hu)
  · intro hvalid S l hl o ho hou
    obtain ⟨e, he, _, _, _, hbad⟩ := hlist S l hl o ho
    have hv := hvalid e ((mem_Del_db p urls w e).mp he).1
    rw [hbad hou] at hv
    cases hv

/-- Witness of C4 as amended: a URL without a record and the URL of `a.txt` deleted in one
call. -/
theorem del_then_absent_witness :
    Reachable exampleProvider worldTwoStores ∧
    helloUrl ∈ ["http://localhost:3001/public/s/none".toStr, helloUrl] ∧
    exampleProvider.Get helloUrl
      (exampleProvider.Del ["http://localhost:3001/public/s/none".toStr, helloUrl]
        worldTwoStores) = Res.error ∧
    (∀ (S : Str) (l : List Object),
      exampleProvider.List S
        (exampleProvider.Del ["http://localhost:3001/public/s/none".toStr, helloUrl]
          worldTwoStores) = Res.ok l →
      ∀ o ∈ l, ∃ e ∈ (exampleProvider.Del
          ["http://localhost:3001/public/s/none".toStr, helloUrl] worldTwoStores).db,
        o = parseObject e.2 ∧
        e.1 ∉ ["http://localhost:3001/public/s/none".toStr, helloUrl] ∧
        o.Url = toValidUTF8 e.1 ∧ (o.Url = helloUrl → utf8Valid e.1 = false)) ∧
    ((∀ e ∈ worldTwoStores.db, utf8Valid e.1 = true) →
      ∀ (S : Str) (l : List Object),
        exampleProvider.List S
          (exampleProvider.Del ["http://localhost:3001/public/s/none".toStr, helloUrl]
            worldTwoStores) = Res.ok l →
        ∀ o ∈ l, o.Url ≠ helloUrl) :=
  have hr : Reachable exampleProvider worldTwoStores :=
    Reachable.put _ _ _ _ _ (Reachable.put _ _ _ _ _ Reachable.init)
  have hm : helloUrl ∈ ["http://localhost:3001/public/s/none".toStr, helloUrl] := by
    simp
  ⟨hr, hm, del_then_absent exampleProvider worldTwoStores _ helloUrl hr hm⟩

/-- C10, as stated, fails: `hello` put at the pathname `\xff.txt` of store `s`.  The record
`Put` returns has the pathname as given, but the stored record, the one `Get` and `List`
return, has `Pathname` `\xef\xbf\xbd.txt`: JSON replaces the byte `FF` by U+FFFD. -/
theorem stored_pathname_differs_on_invalid_utf8 :
    exampleProvider.Put "s".toStr putBadOptions rand1 exampleNow exampleWorld
      = (Res.ok badObject, worldAfterPutBad) ∧
    badObject.Pathname = putBadOptions.Pathname ∧
    (∃ g, exampleProvider.Get badObject.Url worldAfterPutBad = Res.ok g ∧
      g.Pathname = "\xef\xbf\xbd.txt".toStr ∧ g.Pathname ≠ putBadOptions.Pathname) ∧
    ∃ l x, exampleProvider.List "s".toStr worldAfterPutBad = Res.ok l ∧ l = [x] ∧
      x.Pathname ≠ putBadOptions.Pathname := by
  refine ⟨by decide, by decide, ⟨parseObject (marshal badObject), by decide, by decide,
    by decide⟩, _, parseObject (marshal badObject), rfl, by decide, by decide⟩

/-- C10, amended. Every successful `ObjectProvider.Put` in a reachable state, with or
without `AddRandomSuffix`, returns a record whose `Pathname` is `options.Pathname` as given,
whose `Url` is `CreatePublicUrl(store, onDiskPathname)` and whose `DownloadUrl` is
`Url + "?download=1"`, the on-disk pathname being the suffixed one when a suffix was asked
for and then different from `options.Pathname`.  The stored record, which `Get` of the `Url`
and every listing afterwards return for that object, holds these strings coerced to valid
UTF-8: its `Pathname` is `options.Pathname` exactly when that is valid UTF-8, and never the
suffixed pathname. -/
theorem put_keeps_logical_pathname (p : ObjectProvider) (store : Str) (options : PutOptions)
    (r : Rand) (now : Str) (w w' : World) (o : Object)
    (hw : Reachable p w) (h : p.Put store options r now w = (Res.ok o, w')) :
    o.Pathname = options.Pathname ∧
    o.Url = CreatePublicUrl store (onDiskPathname r options) ∧
    o.DownloadUrl = o.Url ++ "?download=1".toStr ∧
    onDiskPathname r options
      = (if options.AddRandomSuffix then AddRandomSuffix r options.Pathname
         else options.Pathname) ∧
    (options.AddRandomSuffix = true → options.Pathname ≠ onDiskPathname r options) ∧
    (∃ g, p.Get o.Url w' = Res.ok g ∧ StoredAs g.Pathname options.Pathname ∧
      StoredAs g.Url o.Url ∧ StoredAs g.DownloadUrl o.DownloadUrl ∧
      (options.AddRandomSuffix = true → g.Pathname ≠ onDiskPathname r options)) ∧
    (∀ (S : Str) (l : List Object), p.List S w' = Res.ok l →
      ∀ x ∈ l, ∃ e ∈ w'.db, x = parseObject e.2 ∧
        (e.1 = o.Url → StoredAs x.Pathname options.Pathname ∧
          (options.AddRandomSuffix = true → x.Pathname ≠ onDiskPathname r options))) := by
  obtain ⟨size, filepath, fs', hfp, ho, hw'⟩ := ObjectProvider_Put_ok p store options r now w w' o h
  have hpath : o.Pathname = options.Pathname := by rw [ho]; rfl
  have hlook : lookupKey o.Url w'.db = some (marshal o) := by
    rw [hw']; exact lookupKey_dbSet_self _ _ _
  have hstored : StoredAs (parseObject (marshal o)).Pathname options.Pathname := by
    rw [← hpath]; exact StoredAs_toValidUTF8 _
  have hnever : options.AddRandomSuffix = true →
      (parseObject (marshal o)).Pathname ≠ onDiskPathname r options := by
    intro hs
    simp only [onDiskPathname, hs, if_true]
    show toValidUTF8 o.Pathname ≠ _
    rw [hpath]
    exact toValidUTF8_ne_AddRandomSuffix r options.Pathname
  refine ⟨hpath, by rw [ho]; rfl, by rw [ho]; rfl, rfl, ?_, ?_, ?_⟩
  · intro hs
    simp only [onDiskPathname, hs, if_true]
    exact AddRandomSuffix_ne r options.Pathname
  · exact ⟨parseObject (marshal o), Get_eq_ok p o.Url w' _ hlook, hstored,
      StoredAs_toValidUTF8 _, StoredAs_toValidUTF8 _, hnever⟩
  · intro S l hl x hx
    simp only [ObjectProvider.List, Res.ok.injEq] at hl
    rw [← hl] at hx
    obtain ⟨e, he, hxe⟩ := mem_MetadataProvider_List _ _ x hx
    refine ⟨e, he, hxe, ?_⟩
    intro hkey
    have hreach : Reachable p w' := by
      have := Reachable.put w store options r now hw
      rw [h] at this
      exact this
    have heq : e = (o.Url, marshal o) :=
      SortedKeys_unique w'.db (Reachable_SortedKeys p w' hreach) e (o.Url, marshal o) he
        (lookupKey_mem _ _ _ hlook) hkey
    rw [hxe, heq]
    exact ⟨hstored, hnever⟩

/-- Witness of C10 as amended: `hello` put at `images/cat.png` of store `s` with a random
suffix. -/
theorem put_keeps_logical_pathname_witness :
    Reachable exampleProvider worldAfterPutHello ∧
    exampleProvider.Put "s".toStr putCatOptions rand1 exampleNow worldAfterPutHello
      = (Res.ok catObject, worldAfterPutCat) ∧
    catObject.Pathname = putCatOptions.Pathname ∧
    catObject.Url = CreatePublicUrl "s".toStr (onDiskPathname rand1 putCatOptions) ∧
    catObject.DownloadUrl = catObject.Url ++ "?download=1".toStr ∧
    onDiskPathname rand1 putCatOptions
      = (if putCatOptions.AddRandomSuffix then AddRandomSuffix rand1 putCatOptions.Pathname
         else putCatOptions.Pathname) ∧
    (putCatOptions.AddRandomSuffix = true →
      putCatOptions.Pathname ≠ onDiskPathname rand1 putCatOptions) ∧
    (∃ g, exampleProvider.Get catObject.Url worldAfterPutCat = Res.ok g ∧
      StoredAs g.Pathname putCatOptions.Pathname ∧ StoredAs g.Url catObject.Url ∧
      StoredAs g.DownloadUrl catObject.DownloadUrl ∧
      (putCatOptions.AddRandomSuffix = true →
        g.Pathname ≠ onDiskPathname rand1 putCatOptions)) ∧
    (∀ (S : Str) (l : List Object), exampleProvider.List S worldAfterPutCat = Res.ok l →
      ∀ x ∈ l, ∃ e ∈ worldAfterPutCat.db, x = parseObject e.2 ∧
        (e.1 = catObject.Url → StoredAs x.Pathname putCatOptions.Pathname ∧
          (putCatOptions.AddRandomSuffix = true →
            x.Pathname ≠ onDiskPathname rand1 putCatOptions))) :=
  have hr : Reachable exampleProvider worldAfterPutHello :=
    Reachable.put _ _ _ _ _ Reachable.init
  have hp : exampleProvider.Put "s".toStr putCatOptions rand1 exampleNow worldAfterPutHello
      = (Res.ok catObject, worldAfterPutCat) := by decide
  ⟨hr, hp, put_keeps_logical_pathname exampleProvider "s".toStr putCatOptions rand1
    exampleNow worldAfterPutHello worldAfterPutCat catObject hr hp⟩

end BlobLocal
